import Mathlib

/-!
# Verification of the papermc-launcher process supervisor

Shallow embedding of the supervisor program (package `main`, current
revision in `main.go`, plus the historical revision kept in
`launcher.go`): the weekly schedule resolver, the output-analyzer
(correlation engine) worker, the backup saga, the access-control
actions, the `IsStarted`/`Start` lifecycle guard, and the
`Duration` JSON (un)marshalling helpers.

Times and durations are modelled as mathematical integers counting
nanoseconds, mirroring Go's `time.Duration`/`time.Time` arithmetic as
used by the source (`midnight.Add(...)`, `t.Before(u)` is `t < u`).
The scheduler's `midnight` values advance by a literal
`time.Add(24 * time.Hour)`, so days are uniform 24-hour spans here
exactly as in the source.
-/

namespace Launcher

/-! ## Schedule resolver (the scheduling worker in `Server.Start`) -/

/-- `InnerCmd` from the source: `Backup | CloseAccess | OpenAccess | Warn`. -/
inductive InnerCmd where
  | Backup
  | CloseAccess
  | OpenAccess
  | Warn
deriving DecidableEq, Repr

/-- One entry of `Config.AccessSchedule.DaysSchedule`: the values
`schedule.Start.Duration()` and `schedule.End.Duration()` in
nanoseconds from local midnight. -/
structure TimeInterval where
  Start : Int
  End : Int
deriving DecidableEq, Repr

/-- The parts of `Config` read by the scheduling worker:
`AccessSchedule.DaysSchedule` (a `map[Weekday]TimeInterval`, weekday
numbered as Go's `time.Weekday`, Sunday = 0 … Saturday = 6) and
`WarnBefore` (a list of durations in nanoseconds). -/
structure ScheduleConfig where
  DaysSchedule : Nat → Option TimeInterval
  WarnBefore : List Int

/-- The scheduling worker's running selection: `nextTime` (a
`*time.Time`, with `nil` modelled as `none`) and `nextCommand`. -/
structure SchedState where
  nextTime : Option Int
  nextCommand : InnerCmd
deriving DecidableEq, Repr

/-- One candidate update in the scheduling worker:
`if (nextTime == nil || t.Before(*nextTime)) && now.Before(t) { nextTime = &t; nextCommand = cmd }`. -/
def considerCandidate (now : Int) (st : SchedState) (t : Int) (cmd : InnerCmd) : SchedState :=
  match st.nextTime with
  | none => if now < t then { nextTime := some t, nextCommand := cmd } else st
  | some nt => if t < nt ∧ now < t then { nextTime := some t, nextCommand := cmd } else st

/-- `time.Hour * 5`: offset of the weekly backup candidate from Monday midnight. -/
def backupHourOffset : Int := 5 * 3600 * 1000000000

/-- Nanoseconds in the scheduler's day step `midnight.Add(time.Hour * 24)`. -/
def nsPerDay : Int := 24 * 3600 * 1000000000

/-- The `if ok { ... }` part of the scheduling worker's per-day scan:
for a day with a `ScheduleEntry`, consider the open candidate, then
each warn candidate (in `WarnBefore` order), then the close candidate;
a day without an entry is only logged. -/
def dayScheduleScan (cfg : ScheduleConfig) (now : Int) (st : SchedState) (midnight : Int)
    (weekday : Nat) : SchedState :=
  match cfg.DaysSchedule weekday with
  | some schedule =>
    let stOpen := considerCandidate now st (midnight + schedule.Start) .OpenAccess
    let stWarn := cfg.WarnBefore.foldl
      (fun st offset => considerCandidate now st (midnight + schedule.End - offset) .Warn)
      stOpen
    considerCandidate now stWarn (midnight + schedule.End) .CloseAccess
  | none => st

/-- The full body of the scheduling worker's per-day scan: the
schedule-entry candidates, then — for any Monday (`weekday = 1`) —
the weekly backup candidate at `midnight + 5h`. -/
def dayStep (cfg : ScheduleConfig) (now : Int) (st : SchedState) (midnight : Int)
    (weekday : Nat) : SchedState :=
  let st1 := dayScheduleScan cfg now st midnight weekday
  if weekday = 1 then considerCandidate now st1 (midnight + backupHourOffset) .Backup else st1

/-- One pass of the scheduling worker's `for _ = range 8` scan:
starting from `nextTime = nil, nextCommand = Backup`, fold `dayStep`
over the next 8 calendar days (`midnight0` is the local midnight of
the current day, `weekday0` its weekday) and report the selected
command and timestamp, or `none` when nothing was scheduled. -/
def nextEvent (cfg : ScheduleConfig) (midnight0 : Int) (weekday0 : Nat) (now : Int) :
    Option (InnerCmd × Int) :=
  let st := (List.range 8).foldl
    (fun (st : SchedState) (i : Nat) =>
      dayStep cfg now st (midnight0 + (i : Int) * nsPerDay) ((weekday0 + i) % 7))
    { nextTime := none, nextCommand := .Backup }
  match st.nextTime with
  | none => none
  | some t => some (st.nextCommand, t)

/-- Test fixture: the spec's scenario schedule — Monday open 08:00,
close 22:00, warn lead times `[30m]`. -/
def mondayCfg : ScheduleConfig where
  DaysSchedule w := if w = 1 then some ⟨8 * 3600 * 1000000000, 22 * 3600 * 1000000000⟩ else none
  WarnBefore := [30 * 60 * 1000000000]

/-- Test fixture for the tie-break claim: Monday opens at 05:00, which
is exactly the weekly backup candidate's time (`midnight + 5h`). -/
def tieCfg : ScheduleConfig where
  DaysSchedule w := if w = 1 then some ⟨5 * 3600 * 1000000000, 22 * 3600 * 1000000000⟩ else none
  WarnBefore := []

/-- Test fixture with an empty weekly schedule (no `ScheduleEntry` at all). -/
def emptyCfg : ScheduleConfig where
  DaysSchedule _ := none
  WarnBefore := []

/-! ## `strings.Contains` -/

/-- Helper for `stringsContains`: does `query` occur in the text? -/
def listIsInfix (query : List Char) : List Char → Bool
  | [] => query.isEmpty
  | c :: rest => query.isPrefixOf (c :: rest) || listIsInfix query rest

/-- Go's `strings.Contains(s, substr)`: `substr` occurs as a
contiguous substring of `s`. -/
def stringsContains (s substr : String) : Bool :=
  listIsInfix substr.toList s.toList

/-! ## Process lifecycle guard (`Server.IsStarted` / `Server.Start`) -/

/-- A `context.Context` as the lifecycle guard reads it: whether
`ctx.Err() != nil`, i.e. whether the context has been cancelled.
The goroutine waiting on the child process calls `s.contextCancel()`
exactly when the process exits, so `canceled = true` means the
process has already exited (or an enclosing context was cancelled). -/
structure CmdCtx where
  canceled : Bool
deriving DecidableEq, Repr

/-- The `Server` field consulted by the guard: `cmdCtx`, which is
`nil` before the first `Start` and after a completed `Stop`. -/
structure ServerLifecycle where
  cmdCtx : Option CmdCtx
deriving DecidableEq, Repr

/-- `Server.IsStarted`: `return s.cmdCtx != nil && s.cmdCtx.Err() != nil`. -/
def IsStarted (s : ServerLifecycle) : Bool :=
  match s.cmdCtx with
  | none => false
  | some ctx => ctx.canceled

/-- The outcome of `Server.Start` as far as its guard decides it:
either the `Already started` error, or the process is launched with
`s.cmdCtx` set to a fresh, uncancelled context. -/
inductive StartOutcome where
  | alreadyStartedError
  | launched (s : ServerLifecycle)
deriving DecidableEq, Repr

/-- The guard and state update at the head of `Server.Start`:
`if s.IsStarted() { return fmt.Errorf("Already started") }`, else the
process is launched under a fresh cancellable context. -/
def StartGuard (s : ServerLifecycle) : StartOutcome :=
  if IsStarted s then .alreadyStartedError
  else .launched { cmdCtx := some { canceled := false } }

/-- A server whose child process is running: `Start` has succeeded
(`cmdCtx` is set) and neither a process exit nor `Stop` has happened
(`cmdCtx.Err() == nil`). -/
def runningServer : ServerLifecycle := { cmdCtx := some { canceled := false } }

/-! ## Access-control actions (inner-command cases of `Server.Run`) -/

/-- `PlayerType` from the source: `Java | Bedrock`. -/
inductive PlayerType where
  | Java
  | Bedrock
deriving DecidableEq, Repr

/-- `Player` from the source (field `Type` is spelt `type` here:
`Type` is reserved in Lean). -/
structure Player where
  type : PlayerType
  Nickname : String
deriving DecidableEq, Repr

/-- One observable action of the event loop towards the child
process: a line sent on `inputsPipe`, or a `time.Sleep`
(milliseconds). -/
inductive LoopEvent where
  | cmdSent (line : String)
  | sleepMs (ms : Nat)
deriving DecidableEq, Repr

/-- The body of the CloseAccess per-player loop: the remove and kick
commands selected by `player.Type`, then the `time.Sleep(200ms)`. -/
def closePlayerEvents (player : Player) : List LoopEvent :=
  (match player.type with
   | .Java =>
     [.cmdSent ("whitelist remove " ++ player.Nickname),
      .cmdSent ("kick " ++ player.Nickname ++ " Server is closed")]
   | .Bedrock =>
     [.cmdSent ("fwhitelist remove " ++ player.Nickname),
      .cmdSent ("kick ." ++ player.Nickname ++ " Server is closed")]) ++ [.sleepMs 200]

/-- The CloseAccess case of `Server.Run`: the closing broadcast, the
`time.Sleep(5s)` grace period, then the per-player loop over
`s.Config.Players` in configured order. -/
def closeAccessTrace (players : List Player) : List LoopEvent :=
  .cmdSent "say Server is closing now!" :: .sleepMs 5000 ::
    players.flatMap closePlayerEvents

/-- The command lines actually sent on `inputsPipe` in a trace. -/
def commandsOf (trace : List LoopEvent) : List String :=
  trace.filterMap fun e =>
    match e with
    | .cmdSent line => some line
    | .sleepMs _ => none

/-- The two commands CloseAccess sends for one player. -/
def closePlayerCommands (player : Player) : List String :=
  match player.type with
  | .Java =>
    ["whitelist remove " ++ player.Nickname,
     "kick " ++ player.Nickname ++ " Server is closed"]
  | .Bedrock =>
    ["fwhitelist remove " ++ player.Nickname,
     "kick ." ++ player.Nickname ++ " Server is closed"]

/-- The substring the Warn handler registers before sending `list`. -/
def warnQuery : String := "of a max of"

/-- The zero-players marker the Warn handler tests the delivered
line against. -/
def warnZeroMarker : String := "There are 0 of a max of"

/-- The Warn case of `Server.Run`, as a function of the line the
correlation engine delivers for the registered request: the
registered query, and the commands sent — `list`, then the warning
broadcast unless the line indicates zero players online
(`if !strings.Contains(playerList, "There are 0 of a max of")`). -/
def warnCase (playerList : String) : String × List String :=
  (warnQuery,
   "list" ::
     (if !stringsContains playerList warnZeroMarker then ["say Server will close soon"]
      else []))

/-! ## Backup saga (`Server.Backup`) -/

/-- One step of the backup saga, as observed on the server's pipes:
a `ListenRequest` submission (with its acceptance awaited), a command
sent on `inputsPipe`, a blocking wait on the request's `found`
channel, the `BackupFolder` archive call, or a sleep. -/
inductive SagaEvent where
  | request (query : String)
  | send (cmd : String)
  | awaitFound (query : String)
  | archive
  | sleepMs (ms : Nat)
deriving DecidableEq, Repr

/-- `Server.Backup` of the current revision (`main.go`): the saga's
event trace and its returned error, as a function of the archive
step's result (`BackupFolder`'s error, `none` on success). The
archive error is captured in `err` and returned only at the end,
after the `save-on` exchange has completed. -/
def serverBackup (archiveErr : Option String) : List SagaEvent × Option String :=
  ([.request "Automatic saving is now disabled", .send "save-off",
    .awaitFound "Automatic saving is now disabled",
    .request "Saved the game", .send "save-all", .awaitFound "Saved the game",
    .archive, .sleepMs 200,
    .request "Automatic saving is now enabled", .send "save-on",
    .awaitFound "Automatic saving is now enabled"],
   archiveErr)

/-- `Server.Backup` of the historical revision (`launcher.go`): after
the archive step it does `if err != nil { return err }`, so on an
archive error the saga returns immediately and the re-enable steps
never run. -/
def serverBackupLauncher (archiveErr : Option String) : List SagaEvent × Option String :=
  let firstSteps : List SagaEvent :=
    [.request "Automatic saving is now disabled", .send "save-off",
     .awaitFound "Automatic saving is now disabled",
     .request "Saved the game", .send "save-all", .awaitFound "Saved the game",
     .archive]
  match archiveErr with
  | some e => (firstSteps, some e)
  | none =>
    (firstSteps ++
      [.sleepMs 200,
       .request "Automatic saving is now enabled", .send "save-on",
       .awaitFound "Automatic saving is now enabled"],
     none)

/-- How many times a given command line is sent in a saga trace. -/
def countSend (cmd : String) (trace : List SagaEvent) : Nat :=
  trace.countP fun e => e == .send cmd

/-! ## Output analyzer worker (the correlation engine) -/

/-- `ListenRequest`, minus its two channels: the substring to wait
for. -/
structure ListenRequest where
  query : String
deriving DecidableEq, Repr

/-- State of the output-analyzer goroutine: running with `reqPtr`
(`nil` or the in-flight request), or returned. -/
inductive AnalyzerState where
  | running (reqPtr : Option ListenRequest)
  | stopped
deriving DecidableEq, Repr

/-- One reason the analyzer's `select` can wake up. -/
inductive AnalyzerEvent where
  | outputLine (text : String)
  | outputClosed
  | request (req : ListenRequest)
  | ctxDone
deriving DecidableEq, Repr

/-- What the analyzer emits in response: a logged line, an
acceptance signal (`reqPtr.accepted <- struct{}{}`, tagged here with
the accepted request's query), or a delivery
(`reqPtr.found <- text`, tagged with the matched request's query). -/
inductive AnalyzerOutput where
  | logged (text : String)
  | acceptedAck (query : String)
  | delivered (text : String) (query : String)
deriving DecidableEq, Repr

/-- One iteration of the analyzer loop. `none` means the event's
channel is not part of the current `select`: with a request in flight
the loop does not receive from `requestsPipe`, so — the pipe being
unbuffered — the submitter of a second request stays blocked; and a
terminated analyzer receives nothing at all. -/
def analyzerStep (s : AnalyzerState) (ev : AnalyzerEvent) :
    Option (AnalyzerState × List AnalyzerOutput) :=
  match s, ev with
  | .stopped, _ => none
  | .running (some req), .outputLine text =>
    if stringsContains text req.query then
      some (.running none, [.delivered text req.query, .logged text])
    else
      some (.running (some req), [.logged text])
  | .running (some _), .outputClosed => some (.stopped, [])
  | .running (some _), .ctxDone => some (.stopped, [])
  | .running (some _), .request _ => none
  | .running none, .outputLine text => some (.running none, [.logged text])
  | .running none, .outputClosed => some (.stopped, [])
  | .running none, .request req => some (.running (some req), [.acceptedAck req.query])
  | .running none, .ctxDone => some (.stopped, [])

/-- Run the analyzer over a sequence of events, collecting its
outputs; `none` when some event in the list is one the analyzer
does not accept in its state (that sender would still be blocked). -/
def analyzerRun (s : AnalyzerState) : List AnalyzerEvent →
    Option (AnalyzerState × List AnalyzerOutput)
  | [] => some (s, [])
  | ev :: evs =>
    match analyzerStep s ev with
    | none => none
    | some (s1, out) =>
      match analyzerRun s1 evs with
      | none => none
      | some (s2, outs) => some (s2, out ++ outs)

/-- Number of request acceptances among the outputs. -/
def countAccepts (outs : List AnalyzerOutput) : Nat :=
  outs.countP fun o =>
    match o with
    | .acceptedAck _ => true
    | _ => false

/-- Number of deliveries among the outputs. -/
def countDeliveries (outs : List AnalyzerOutput) : Nat :=
  outs.countP fun o =>
    match o with
    | .delivered _ _ => true
    | _ => false

/-- 1 when a request is in flight, 0 otherwise. -/
def pendingCount : AnalyzerState → Nat
  | .running (some _) => 1
  | _ => 0

/-- The query of the in-flight request, if any. -/
def activeQuery : AnalyzerState → Option String
  | .running (some req) => some req.query
  | _ => none

/-- Scan the outputs, tracking the in-flight query: every acceptance
must happen with the slot free, and every delivery must carry the
query of the then-current request and a line that contains it. -/
def wellCorrelated (active : Option String) : List AnalyzerOutput → Bool
  | [] => true
  | .acceptedAck q :: rest => active == none && wellCorrelated (some q) rest
  | .delivered text q :: rest =>
    active == some q && stringsContains text q && wellCorrelated none rest
  | .logged _ :: rest => wellCorrelated active rest

/-! ## `Duration` JSON marshalling

`Duration.MarshalJSON` is `json.Marshal(time.Duration(d).String())`
and `Duration.UnmarshalJSON` feeds a decoded JSON string through
`time.ParseDuration`, so the two standard-library functions are
embedded here as well (from Go's `time` package: `Duration.String`,
`fmtInt`, `fmtFrac`, `ParseDuration`, `leadingInt`,
`leadingFraction`, `unitMap`). All arithmetic is on `Nat`, with Go's
`uint64` wrap point `1 << 63` appearing in the explicit overflow
checks exactly where the Go code checks it. -/

/-- `time.Microsecond` in nanoseconds. -/
def Microsecond : Nat := 1000

/-- `time.Millisecond` in nanoseconds. -/
def Millisecond : Nat := 1000000

/-- `time.Second` in nanoseconds. -/
def Second : Nat := 1000000000

/-- `time.Minute` in nanoseconds. -/
def Minute : Nat := 60000000000

/-- `time.Hour` in nanoseconds. -/
def Hour : Nat := 3600000000000

/-- `1 << 63`: the bound of Go's `uint64` overflow checks. -/
def twoPow63 : Nat := 9223372036854775808

/-- Go's `fmtInt`: the decimal digits of `v`, `"0"` for zero (the Go
loop emits `v % 10` digits right-to-left, i.e. the base-10 digits in
most-significant-first order). -/
def fmtInt (v : Nat) : List Char :=
  if v = 0 then ['0']
  else (Nat.digits 10 v).reverse.map fun d => Char.ofNat (d + 48)

/-- Go's `fmtFrac`: format the `prec` low decimal digits of `v` as a
fraction, omitting trailing zeros and emitting the `'.'` only when
some digit is printed; digits are produced least-significant first
and prepended to `acc`. Returns the formatted text and `v / 10^prec`. -/
def fmtFrac (v : Nat) (prec : Nat) (acc : List Char) (print : Bool) : List Char × Nat :=
  match prec with
  | 0 => ((if print then '.' :: acc else acc), v)
  | p + 1 =>
    let digit := v % 10
    let print1 := print || decide (digit ≠ 0)
    let acc1 := if print1 then Char.ofNat (digit + 48) :: acc else acc
    fmtFrac (v / 10) p acc1 print1

/-- The unsigned part of Go's `time.Duration.String()` (its `format`
helper on `u = uint64(|d|)`, before the `'-'` is prepended): below one
second the value is printed with a small unit (ns, µs or ms) and up
to `prec` fraction digits; otherwise seconds with a 9-digit fraction,
then minutes and hours as they are nonzero. -/
def durationCore (u : Nat) : List Char :=
  if u < Second then
    if u < Microsecond then fmtInt u ++ ['n', 's']
    else if u < Millisecond then
      fmtInt (fmtFrac u 3 [] false).2 ++ (fmtFrac u 3 [] false).1 ++ ['µ', 's']
    else
      fmtInt (fmtFrac u 6 [] false).2 ++ (fmtFrac u 6 [] false).1 ++ ['m', 's']
  else
    if 0 < (fmtFrac u 9 [] false).2 / 60 then
      if 0 < (fmtFrac u 9 [] false).2 / 60 / 60 then
        fmtInt ((fmtFrac u 9 [] false).2 / 60 / 60) ++ ['h'] ++
          (fmtInt ((fmtFrac u 9 [] false).2 / 60 % 60) ++ ['m'] ++
            (fmtInt ((fmtFrac u 9 [] false).2 % 60) ++ (fmtFrac u 9 [] false).1 ++ ['s']))
      else
        fmtInt ((fmtFrac u 9 [] false).2 / 60 % 60) ++ ['m'] ++
          (fmtInt ((fmtFrac u 9 [] false).2 % 60) ++ (fmtFrac u 9 [] false).1 ++ ['s'])
    else fmtInt ((fmtFrac u 9 [] false).2 % 60) ++ (fmtFrac u 9 [] false).1 ++ ['s']

/-- Go's `time.Duration.String()` on an `int64` nanosecond count:
the special case `"0s"`, else the unsigned core with `'-'` prepended
for negative durations. -/
def durationString (d : Int) : List Char :=
  let u : Nat := d.natAbs
  if u = 0 then ['0', 's']
  else if d < 0 then '-' :: durationCore u
  else durationCore u

/-- Go's `leadingInt`: consume leading digits into `x`; `none` models
`errLeadingInt` on overflow past `1 << 63`. -/
def leadingInt (x : Nat) : List Char → Option (Nat × List Char)
  | [] => some (x, [])
  | c :: rest =>
    if c.isDigit then
      if x > twoPow63 / 10 then none
      else
        let x1 := x * 10 + (c.toNat - 48)
        if x1 > twoPow63 then none
        else leadingInt x1 rest
    else some (x, c :: rest)

/-- Go's `leadingFraction`: consume digits after the decimal point
into `x`, multiplying `scale` by ten per kept digit; once the value
would overflow, remaining digits are consumed but ignored. -/
def leadingFraction (x scale : Nat) (overflow : Bool) :
    List Char → Nat × Nat × List Char
  | [] => (x, scale, [])
  | c :: rest =>
    if c.isDigit then
      if overflow then leadingFraction x scale overflow rest
      else if x > (twoPow63 - 1) / 10 then leadingFraction x scale true rest
      else
        let y := x * 10 + (c.toNat - 48)
        if y > twoPow63 then leadingFraction x scale true rest
        else leadingFraction y (scale * 10) overflow rest
    else (x, scale, c :: rest)

/-- Go's `unitMap` (`'µ'` is U+00B5, `'μ'` is U+03BC). -/
def unitMap (u : List Char) : Option Nat :=
  if u = ['n', 's'] then some 1
  else if u = ['u', 's'] then some Microsecond
  else if u = ['µ', 's'] then some Microsecond
  else if u = ['μ', 's'] then some Microsecond
  else if u = ['m', 's'] then some Millisecond
  else if u = ['s'] then some Second
  else if u = ['m'] then some Minute
  else if u = ['h'] then some Hour
  else none

/-- A character that can be part of a unit name: anything that is
neither `'.'` nor a digit (the unit scan in `ParseDuration` breaks on
`c == '.' || '0' <= c && c <= '9'`). -/
def isUnitChar (c : Char) : Bool := !(c = '.' || c.isDigit)

/-- The `(\.[0-9]*)?` part of one `ParseDuration` loop iteration:
the fraction value, its scale, the remaining input, and whether any
fraction digit was consumed (`post`). -/
def parseFraction (s : List Char) : Nat × Nat × List Char × Bool :=
  match s with
  | c :: t =>
    if c = '.' then
      match leadingFraction 0 1 false t with
      | (f, scale, rest) => (f, scale, rest, decide (rest.length ≠ t.length))
    else (0, 1, c :: t, false)
  | [] => (0, 1, [], false)

/-- The unit scan of one `ParseDuration` loop iteration: take
characters until a `'.'` or digit (`i` is Go's index), splitting
`s` into `s[:i]` and `s[i:]`. -/
def unitScan (s2 : List Char) : List Char × List Char :=
  let i := (s2.takeWhile isUnitChar).length
  (s2.take i, s2.drop i)

/-- One iteration of `ParseDuration`'s loop: parse
`[0-9]*(\.[0-9]*)?unit` at the head of `s` and return the
contributed value `v*unit + f*unit/scale` and the rest of the input;
`none` models every parse or overflow error. Go computes the
fractional contribution as `uint64(float64(f) * (float64(unit) /
scale))`; it is modelled here as the exact `f * unit / scale`, with
which it coincides on every string `durationString` produces (there
`scale` divides `unit` and the product stays below `2^53`, so the
float64 computation is exact). -/
def parseComponent (s : List Char) : Option (Nat × List Char) :=
  match s with
  | [] => none
  | c :: _ =>
    if isUnitChar c then none
    else
      match leadingInt 0 s with
      | none => none
      | some (v, s1) =>
        let pre : Bool := decide (s1.length ≠ s.length)
        match parseFraction s1 with
        | (f, scale, s2, post) =>
          if !pre && !post then none
          else
            match unitScan s2 with
            | (u, s3) =>
              if u = [] then none
              else
                match unitMap u with
                | none => none
                | some unit =>
                  if v > twoPow63 / unit then none
                  else
                    let v1 := v * unit
                    if 0 < f then
                      let v2 := v1 + f * unit / scale
                      if v2 > twoPow63 then none
                      else some (v2, s3)
                    else some (v1, s3)

/-- The `for s != ""` loop of `ParseDuration`, accumulating `d`. The
fuel argument (the caller passes the input's length) only bounds the
recursion: every iteration consumes at least the unit character, so
the fuel never runs out. -/
def parseLoop : Nat → Nat → List Char → Option Nat
  | _, d, [] => some d
  | 0, _, _ :: _ => none
  | fuel + 1, d, c :: cs =>
    match parseComponent (c :: cs) with
    | none => none
    | some (v, rest) =>
      let d1 := d + v
      if d1 > twoPow63 then none
      else parseLoop fuel d1 rest

/-- The `[-+]?` sign consumption at the head of `ParseDuration`. -/
def stripSign (s0 : List Char) : Bool × List Char :=
  match s0 with
  | c :: t =>
    if c = '-' then (true, t)
    else if c = '+' then (false, t)
    else (false, c :: t)
  | [] => (false, [])

/-- Go's `time.ParseDuration` on the characters of the input,
returning the signed nanosecond count; `none` models every
`err != nil` return. -/
def parseDuration (s0 : List Char) : Option Int :=
  let neg := (stripSign s0).1
  let s := (stripSign s0).2
  if s = ['0'] then some 0
  else if s = [] then none
  else
    match parseLoop s.length 0 s with
    | none => none
    | some d =>
      if neg then some (-(d : Int))
      else if d > twoPow63 - 1 then none
      else some (d : Int)

/-- A decoded JSON value, as `json.Unmarshal` into `interface{}`
produces it. Go decodes every JSON number to `float64`; the numeric
payload is modelled as the integer nanosecond count of interest. -/
inductive JsonValue where
  | null
  | bool (b : Bool)
  | num (n : Int)
  | str (s : String)
  | arr (elems : List JsonValue)
  | obj (fields : List (String × JsonValue))

/-- `Duration.MarshalJSON`: `json.Marshal(time.Duration(d).String())`. -/
def durationMarshalJSON (d : Int) : JsonValue :=
  .str (String.mk (durationString d))

/-- `Duration.UnmarshalJSON`: a JSON number is taken as a nanosecond
count, a JSON string goes through `time.ParseDuration`, and every
other JSON value is an `invalid duration` error. -/
def durationUnmarshalJSON (j : JsonValue) : Except String Int :=
  match j with
  | .num value => .ok value
  | .str value =>
    match parseDuration value.toList with
    | some d => .ok d
    | none => .error "time: invalid duration"
  | .null => .error "invalid duration"
  | .bool _ => .error "invalid duration"
  | .arr _ => .error "invalid duration"
  | .obj _ => .error "invalid duration"

/-- The digit-fold `x*10 + digit` that `leadingInt` and
`leadingFraction` perform, as a standalone value function. -/
def digitsVal (x : Nat) (ds : List Char) : Nat :=
  ds.foldl (fun a c => a * 10 + (c.toNat - 48)) x

end Launcher

namespace Launcher

/-! ## Theorems about the schedule resolver -/

lemma considerCandidate_inv (now : Int) (st : SchedState) (t : Int) (cmd : InnerCmd)
    (h : ∀ u, st.nextTime = some u → now < u) :
    ∀ u, (considerCandidate now st t cmd).nextTime = some u → now < u := by
  intro u hu
  cases hst : st.nextTime with
  | none =>
    simp only [considerCandidate, hst] at hu
    split at hu
    · simp only [Option.some.injEq] at hu
      omega
    · exact h u (hst ▸ hu)
  | some nt =>
    simp only [considerCandidate, hst] at hu
    split at hu
    · simp only [Option.some.injEq] at hu
      omega
    · exact h u (hst ▸ hu)

lemma foldlWarn_inv (now e : Int) (l : List Int) (st : SchedState)
    (h : ∀ u, st.nextTime = some u → now < u) :
    ∀ u, ((l.foldl (fun st offset => considerCandidate now st (e - offset) .Warn) st).nextTime
      = some u) → now < u := by
  induction l generalizing st with
  | nil => exact h
  | cons a l ih => exact ih _ (considerCandidate_inv _ _ _ _ h)

lemma dayScheduleScan_inv (cfg : ScheduleConfig) (now : Int) (st : SchedState)
    (midnight : Int) (weekday : Nat) (h : ∀ u, st.nextTime = some u → now < u) :
    ∀ u, (dayScheduleScan cfg now st midnight weekday).nextTime = some u → now < u := by
  cases hd : cfg.DaysSchedule weekday with
  | none => simpa only [dayScheduleScan, hd] using h
  | some schedule =>
    simp only [dayScheduleScan, hd]
    exact considerCandidate_inv _ _ _ _
      (foldlWarn_inv _ _ _ _ (considerCandidate_inv _ _ _ _ h))

lemma dayStep_inv (cfg : ScheduleConfig) (now : Int) (st : SchedState) (midnight : Int)
    (weekday : Nat) (h : ∀ u, st.nextTime = some u → now < u) :
    ∀ u, (dayStep cfg now st midnight weekday).nextTime = some u → now < u := by
  unfold dayStep
  split
  · exact considerCandidate_inv _ _ _ _ (dayScheduleScan_inv _ _ _ _ _ h)
  · exact dayScheduleScan_inv _ _ _ _ _ h

/-- C4: for every configured schedule and every instant `now`,
`nextEvent now` either reports no candidate or returns a timestamp
strictly after `now`; it never returns a timestamp ≤ `now`. -/
theorem nextEvent_after_now (cfg : ScheduleConfig) (midnight0 : Int) (weekday0 : Nat)
    (now : Int) (cmd : InnerCmd) (t : Int)
    (h : nextEvent cfg midnight0 weekday0 now = some (cmd, t)) : now < t := by
  have key : ∀ (l : List Nat) (st : SchedState),
      (∀ u, st.nextTime = some u → now < u) →
      ∀ u, ((l.foldl
        (fun (st : SchedState) (i : Nat) =>
          dayStep cfg now st (midnight0 + (i : Int) * nsPerDay) ((weekday0 + i) % 7))
        st).nextTime = some u) → now < u := by
    intro l
    induction l with
    | nil => intro st h0; exact h0
    | cons a l ih => intro st h0; exact ih _ (dayStep_inv _ _ _ _ _ h0)
  simp only [nextEvent] at h
  have key' := key (List.range 8) { nextTime := none, nextCommand := .Backup }
    (fun _ hu => Option.noConfusion hu)
  cases hnt : ((List.range 8).foldl
      (fun (st : SchedState) (i : Nat) =>
        dayStep cfg now st (midnight0 + (i : Int) * nsPerDay) ((weekday0 + i) % 7))
      { nextTime := none, nextCommand := .Backup }).nextTime with
  | none => rw [hnt] at h; exact Option.noConfusion h
  | some u =>
    rw [hnt] at h
    simp only [Option.some.injEq, Prod.mk.injEq] at h
    exact h.2 ▸ key' u hnt

/-- Witness for C4: the spec's scenario — Monday open 08:00 / close
22:00 with a 30-minute warn lead, `now` = Monday 07:00; `nextEvent`
returns `(OpenAccess, Monday 08:00)`, which is after `now`. -/
theorem nextEvent_after_now_witness :
    nextEvent mondayCfg 0 1 (7 * 3600 * 1000000000) =
        some (.OpenAccess, 8 * 3600 * 1000000000) ∧
      (7 * 3600 * 1000000000 : Int) < 8 * 3600 * 1000000000 :=
  ⟨by decide, nextEvent_after_now mondayCfg 0 1 (7 * 3600 * 1000000000) .OpenAccess
    (8 * 3600 * 1000000000) (by decide)⟩

/-- C1 counterexample: with Monday opening at 05:00 — exactly the
weekly backup candidate's instant (`midnight + 5h`) — and `now` at
Monday midnight, the resolver selects `OpenAccess`, not `Backup`: the
claimed tie precedence `Backup > Open` does not hold on the code. -/
theorem nextEvent_tie_counterexample :
    nextEvent tieCfg 0 1 0 = some (.OpenAccess, 5 * 3600 * 1000000000) ∧
      InnerCmd.OpenAccess ≠ InnerCmd.Backup := by
  exact ⟨by decide, by decide⟩

/-- C1 amended: among eligible candidates the one with the strictly
earliest timestamp wins; on an exact timestamp tie the
earliest-computed candidate is kept (scan order: day by day, and
within a day Open, then each Warn in `WarnBefore` order, then Close,
then Backup), because a candidate replaces the current selection only
when strictly earlier — never on equality. -/
theorem considerCandidate_strictly_earlier (now t nt : Int) (c0 cmd : InnerCmd) :
    considerCandidate now { nextTime := some nt, nextCommand := c0 } t cmd =
      if t < nt ∧ now < t then { nextTime := some t, nextCommand := cmd }
      else { nextTime := some nt, nextCommand := c0 } := rfl

/-- C7: a weekday with no `ScheduleEntry` contributes no Open, Close
or Warn candidate — its whole per-day scan reduces to considering only
the fixed weekly Backup candidate, and that exactly when the day is
the backup weekday (Monday, at the fixed local hour `midnight + 5h`). -/
theorem dayStep_no_entry (cfg : ScheduleConfig) (now : Int) (st : SchedState)
    (midnight : Int) (weekday : Nat) (h : cfg.DaysSchedule weekday = none) :
    dayStep cfg now st midnight weekday =
      if weekday = 1 then considerCandidate now st (midnight + backupHourOffset) .Backup
      else st := by
  unfold dayStep dayScheduleScan
  rw [h]

/-- Witness for C7: the empty schedule on a Monday — the step is
exactly the backup-candidate update. -/
theorem dayStep_no_entry_witness :
    emptyCfg.DaysSchedule 1 = none ∧
      dayStep emptyCfg 0 { nextTime := none, nextCommand := .Backup } 0 1 =
        (if (1 : Nat) = 1 then
          considerCandidate 0 { nextTime := none, nextCommand := .Backup }
            (0 + backupHourOffset) .Backup
        else { nextTime := none, nextCommand := .Backup }) :=
  ⟨rfl, dayStep_no_entry emptyCfg 0 { nextTime := none, nextCommand := .Backup } 0 1 rfl⟩

/-! ## Theorems about the lifecycle guard -/

/-- C2 (code bug): on a server whose child process is running,
`IsStarted` reports `false` — the guard reads
`s.cmdCtx.Err() != nil`, which only becomes true once the context is
cancelled, i.e. once the process has exited — so a second `Start`
passes the guard and launches a second process instead of returning
the `Already started` error; symmetrically, the guard rejects a
`Start` issued after the process has already exited. -/
theorem startGuard_accepts_while_running :
    IsStarted runningServer = false ∧
      StartGuard runningServer = .launched { cmdCtx := some { canceled := false } } ∧
      IsStarted { cmdCtx := some { canceled := true } } = true :=
  ⟨rfl, rfl, rfl⟩

/-! ## Theorems about the access-control actions -/

lemma commandsOf_append (l1 l2 : List LoopEvent) :
    commandsOf (l1 ++ l2) = commandsOf l1 ++ commandsOf l2 :=
  List.filterMap_append l1 l2 _

lemma commandsOf_closePlayerEvents (player : Player) :
    commandsOf (closePlayerEvents player) = closePlayerCommands player := by
  cases h : player.type <;>
    simp [closePlayerEvents, closePlayerCommands, commandsOf, h]

/-- C8: for every configured player list, CloseAccess first sends the
closing broadcast, then (after the 5-second grace sleep) for each
player in configured order exactly its two commands — remove from the
allow-list, then kick, with verbs chosen by the player's kind; on
`[{Java, Al}, {Bedrock, Bo}]` the full trace is the broadcast, the
grace sleep, and then remove Al, kick Al, remove Bo, kick Bo — 4
commands in that order, with the per-player 200 ms delay after each
player's pair. -/
theorem closeAccess_commands (players : List Player) :
    commandsOf (closeAccessTrace players) =
        "say Server is closing now!" :: players.flatMap closePlayerCommands ∧
      closeAccessTrace
          [{ type := .Java, Nickname := "Al" }, { type := .Bedrock, Nickname := "Bo" }] =
        [.cmdSent "say Server is closing now!", .sleepMs 5000,
         .cmdSent "whitelist remove Al", .cmdSent "kick Al Server is closed", .sleepMs 200,
         .cmdSent "fwhitelist remove Bo", .cmdSent "kick .Bo Server is closed",
         .sleepMs 200] := by
  constructor
  · show commandsOf (.cmdSent "say Server is closing now!" :: .sleepMs 5000 ::
      players.flatMap closePlayerEvents) = _
    simp only [commandsOf, List.filterMap_cons]
    induction players with
    | nil => rfl
    | cons p ps ih =>
      simp only [List.flatMap_cons, List.filterMap_append]
      have hp := commandsOf_closePlayerEvents p
      simp only [commandsOf] at hp ih
      rw [hp]
      simp only [List.cons.injEq, true_and] at ih ⊢
      rw [ih]
  · rfl

/-- C9: the Warn handler registers the request for `"of a max of"`,
sends `list`, and broadcasts the warning exactly when the delivered
player-count line does not contain `"There are 0 of a max of"`; on
the zero-players line no warning is sent, on another player-count
line it is. -/
theorem warnCase_zero_players (line : String) :
    (warnCase line).1 = "of a max of" ∧
      ("say Server will close soon" ∈ (warnCase line).2 ↔
        stringsContains line "There are 0 of a max of" = false) ∧
      (warnCase "There are 0 of a max of 20 players online").2 = ["list"] ∧
      (warnCase "There are 3 of a max of 20 players online").2 =
        ["list", "say Server will close soon"] := by
  refine ⟨rfl, ?_, by decide, by decide⟩
  cases h : stringsContains line warnZeroMarker <;>
    simp [warnCase, h, warnZeroMarker]

/-! ## Theorems about the backup saga -/

/-- C3 counterexample: in the historical revision of the saga
(`launcher.go`, `Server.Backup`), an archive error is returned with
autosave still disabled — the `save-on` command is never sent — so
the claim, read over both cited implementations, fails. -/
theorem serverBackupLauncher_counterexample :
    (serverBackupLauncher (some "exit status 1")).2 = some "exit status 1" ∧
      countSend "save-on" (serverBackupLauncher (some "exit status 1")).1 = 0 := by
  exact ⟨rfl, by decide⟩

/-- C3 amended: in the current revision (`main.go`, `Server.Backup`)
the claim holds — whatever the archive step returns, `save-on` is
sent exactly once (at position 9, after the archive step at position
6), its acknowledgement is awaited (position 10), and the archive
step's error is returned only after that exchange; the historical
revision in `launcher.go` instead returns an archive error
immediately, with autosave left disabled. -/
theorem serverBackup_reenables (archiveErr : Option String) :
    countSend "save-on" (serverBackup archiveErr).1 = 1 ∧
      (serverBackup archiveErr).2 = archiveErr ∧
      (serverBackup archiveErr).1[6]? = some .archive ∧
      (serverBackup archiveErr).1[9]? = some (.send "save-on") ∧
      (serverBackup archiveErr).1[10]? =
        some (.awaitFound "Automatic saving is now enabled") := by
  refine ⟨rfl, rfl, rfl, rfl, rfl⟩

/-! ## Theorems about the output analyzer -/
lemma analyzerRun_stopped (evs : List AnalyzerEvent)
    (p : AnalyzerState × List AnalyzerOutput)
    (h : analyzerRun .stopped evs = some p) : evs = [] ∧ p = (.stopped, []) := by
  cases evs with
  | nil =>
    refine ⟨rfl, ?_⟩
    simpa [analyzerRun] using h.symm
  | cons e es => simp [analyzerRun, analyzerStep] at h

lemma analyzerRun_cons (s : AnalyzerState) (ev : AnalyzerEvent) (evs : List AnalyzerEvent)
    (s' : AnalyzerState) (outs : List AnalyzerOutput)
    (h : analyzerRun s (ev :: evs) = some (s', outs)) :
    ∃ s1 out outs1, analyzerStep s ev = some (s1, out) ∧
      analyzerRun s1 evs = some (s', outs1) ∧ outs = out ++ outs1 := by
  cases hstep : analyzerStep s ev with
  | none => simp [analyzerRun, hstep] at h
  | some p =>
    obtain ⟨s1, out⟩ := p
    cases hrun : analyzerRun s1 evs with
    | none => simp [analyzerRun, hstep, hrun] at h
    | some q =>
      obtain ⟨s2, outs1⟩ := q
      have h' : analyzerRun s (ev :: evs) = some (s2, out ++ outs1) := by
        simp [analyzerRun, hstep, hrun]
      rw [h'] at h
      have hpq := Option.some.inj h
      have h1 : s2 = s' := congrArg Prod.fst hpq
      have h2 : out ++ outs1 = outs := congrArg Prod.snd hpq
      exact ⟨s1, out, outs1, rfl, h1 ▸ hrun, h2.symm⟩

lemma countAccepts_append (l1 l2 : List AnalyzerOutput) :
    countAccepts (l1 ++ l2) = countAccepts l1 + countAccepts l2 :=
  List.countP_append _ l1 l2

lemma countDeliveries_append (l1 l2 : List AnalyzerOutput) :
    countDeliveries (l1 ++ l2) = countDeliveries l1 + countDeliveries l2 :=
  List.countP_append _ l1 l2

/-- Per-step bookkeeping: a successful step either conserves
`accepts + pending = deliveries + pending'`, or is a termination step
(no outputs, successor `stopped`). -/
lemma analyzerStep_counts (s : AnalyzerState) (ev : AnalyzerEvent)
    (s1 : AnalyzerState) (out : List AnalyzerOutput)
    (h : analyzerStep s ev = some (s1, out)) :
    countAccepts out + pendingCount s = countDeliveries out + pendingCount s1 ∨
      (s1 = .stopped ∧ out = []) := by
  cases s with
  | stopped => simp [analyzerStep] at h
  | running reqPtr =>
    cases reqPtr with
    | none =>
      cases ev with
      | outputLine text =>
        simp only [analyzerStep, Option.some.injEq, Prod.mk.injEq] at h
        obtain ⟨h1, h2⟩ := h
        subst h1 h2
        left; rfl
      | outputClosed =>
        simp only [analyzerStep, Option.some.injEq, Prod.mk.injEq] at h
        obtain ⟨h1, h2⟩ := h
        subst h1 h2
        right; exact ⟨rfl, rfl⟩
      | request req =>
        simp only [analyzerStep, Option.some.injEq, Prod.mk.injEq] at h
        obtain ⟨h1, h2⟩ := h
        subst h1 h2
        left; rfl
      | ctxDone =>
        simp only [analyzerStep, Option.some.injEq, Prod.mk.injEq] at h
        obtain ⟨h1, h2⟩ := h
        subst h1 h2
        right; exact ⟨rfl, rfl⟩
    | some req =>
      cases ev with
      | outputLine text =>
        simp only [analyzerStep] at h
        split at h <;>
        · simp only [Option.some.injEq, Prod.mk.injEq] at h
          obtain ⟨h1, h2⟩ := h
          subst h1 h2
          left; rfl
      | outputClosed =>
        simp only [analyzerStep, Option.some.injEq, Prod.mk.injEq] at h
        obtain ⟨h1, h2⟩ := h
        subst h1 h2
        right; exact ⟨rfl, rfl⟩
      | request req2 => simp [analyzerStep] at h
      | ctxDone =>
        simp only [analyzerStep, Option.some.injEq, Prod.mk.injEq] at h
        obtain ⟨h1, h2⟩ := h
        subst h1 h2
        right; exact ⟨rfl, rfl⟩

lemma pendingCount_le_one (s : AnalyzerState) : pendingCount s ≤ 1 := by
  cases s with
  | stopped => exact Nat.zero_le 1
  | running reqPtr => cases reqPtr <;> simp [pendingCount]

/-- Run-level invariant: along any admissible run,
`accepts + pending(start) ≤ deliveries + 1`. -/
lemma analyzerRun_count_inv (evs : List AnalyzerEvent) :
    ∀ (s s' : AnalyzerState) (outs : List AnalyzerOutput),
      analyzerRun s evs = some (s', outs) →
      countAccepts outs + pendingCount s ≤ countDeliveries outs + 1 := by
  induction evs with
  | nil =>
    intro s s' outs h
    have hp := Option.some.inj h
    have h2 : ([] : List AnalyzerOutput) = outs := congrArg Prod.snd hp
    subst h2
    have := pendingCount_le_one s
    simp only [countAccepts, countDeliveries, List.countP_nil]
    omega
  | cons ev evs ih =>
    intro s s' outs h
    obtain ⟨s1, out, outs1, hstep, hrun, houts⟩ := analyzerRun_cons s ev evs s' outs h
    subst houts
    have IH := ih s1 s' outs1 hrun
    rw [countAccepts_append, countDeliveries_append]
    rcases analyzerStep_counts s ev s1 out hstep with hc | ⟨hstop, hout⟩
    · omega
    · subst hstop
      subst hout
      obtain ⟨hevs, hp⟩ := analyzerRun_stopped evs _ hrun
      have houts1 : outs1 = [] := congrArg Prod.snd hp
      subst houts1
      have := pendingCount_le_one s
      simp only [countAccepts, countDeliveries, List.countP_nil]
      omega

/-- C5: at most one `ListenRequest` is ever registered with the
analyzer — along every admissible run the number of accepted requests
exceeds the number of delivered matches by at most one — and while a
request is in flight the analyzer's `select` does not include
`requestsPipe` at all, so (the pipe being unbuffered) a second
`await` blocks until the in-flight request has been matched and
`reqPtr` cleared. -/
theorem analyzer_single_pending (evs : List AnalyzerEvent) (s' : AnalyzerState)
    (outs : List AnalyzerOutput)
    (h : analyzerRun (.running none) evs = some (s', outs)) :
    countAccepts outs ≤ countDeliveries outs + 1 ∧
      ∀ (req req2 : ListenRequest),
        analyzerStep (.running (some req)) (.request req2) = none := by
  constructor
  · have := analyzerRun_count_inv evs (.running none) s' outs h
    simpa [pendingCount] using this
  · intro req req2
    rfl

/-- Witness for C5: a run that accepts a request, matches it, and
accepts a second one — two acceptances, one delivery. -/
theorem analyzer_single_pending_witness :
    analyzerRun (.running none)
        [.request { query := "Saved the game" },
         .outputLine "[Server] Saved the game",
         .request { query := "of a max of" }] =
      some (.running (some { query := "of a max of" }),
        [.acceptedAck "Saved the game",
         .delivered "[Server] Saved the game" "Saved the game",
         .logged "[Server] Saved the game",
         .acceptedAck "of a max of"]) ∧
      countAccepts
          [.acceptedAck "Saved the game",
           .delivered "[Server] Saved the game" "Saved the game",
           .logged "[Server] Saved the game",
           .acceptedAck "of a max of"] ≤
        countDeliveries
          [.acceptedAck "Saved the game",
           .delivered "[Server] Saved the game" "Saved the game",
           .logged "[Server] Saved the game",
           .acceptedAck "of a max of"] + 1 :=
  ⟨by decide,
   (analyzer_single_pending
     [.request { query := "Saved the game" },
      .outputLine "[Server] Saved the game",
      .request { query := "of a max of" }]
     (.running (some { query := "of a max of" }))
     [.acceptedAck "Saved the game",
      .delivered "[Server] Saved the game" "Saved the game",
      .logged "[Server] Saved the game",
      .acceptedAck "of a max of"] (by decide)).1⟩

lemma wellCorrelated_run (evs : List AnalyzerEvent) :
    ∀ (s s' : AnalyzerState) (outs : List AnalyzerOutput),
      analyzerRun s evs = some (s', outs) →
      wellCorrelated (activeQuery s) outs = true := by
  induction evs with
  | nil =>
    intro s s' outs h
    have hp := Option.some.inj h
    have h2 : ([] : List AnalyzerOutput) = outs := congrArg Prod.snd hp
    subst h2
    rfl
  | cons ev evs ih =>
    intro s s' outs h
    obtain ⟨s1, out, outs1, hstep, hrun, houts⟩ := analyzerRun_cons s ev evs s' outs h
    subst houts
    have IH := ih s1 s' outs1 hrun
    cases s with
    | stopped => simp [analyzerStep] at hstep
    | running reqPtr =>
      cases reqPtr with
      | none =>
        cases ev with
        | outputLine text =>
          simp only [analyzerStep, Option.some.injEq, Prod.mk.injEq] at hstep
          obtain ⟨h1, h2⟩ := hstep
          subst h1 h2
          simpa [wellCorrelated, activeQuery] using IH
        | outputClosed =>
          simp only [analyzerStep, Option.some.injEq, Prod.mk.injEq] at hstep
          obtain ⟨h1, h2⟩ := hstep
          subst h1 h2
          obtain ⟨hevs, hp⟩ := analyzerRun_stopped evs _ hrun
          have houts1 : outs1 = [] := congrArg Prod.snd hp
          subst houts1
          rfl
        | request req =>
          simp only [analyzerStep, Option.some.injEq, Prod.mk.injEq] at hstep
          obtain ⟨h1, h2⟩ := hstep
          subst h1 h2
          simpa [wellCorrelated, activeQuery] using IH
        | ctxDone =>
          simp only [analyzerStep, Option.some.injEq, Prod.mk.injEq] at hstep
          obtain ⟨h1, h2⟩ := hstep
          subst h1 h2
          obtain ⟨hevs, hp⟩ := analyzerRun_stopped evs _ hrun
          have houts1 : outs1 = [] := congrArg Prod.snd hp
          subst houts1
          rfl
      | some req =>
        cases ev with
        | outputLine text =>
          simp only [analyzerStep] at hstep
          split at hstep
          · simp only [Option.some.injEq, Prod.mk.injEq] at hstep
            obtain ⟨h1, h2⟩ := hstep
            subst h1 h2
            rename_i hcont
            simp only [activeQuery] at IH ⊢
            simp [wellCorrelated, hcont, IH]
          · simp only [Option.some.injEq, Prod.mk.injEq] at hstep
            obtain ⟨h1, h2⟩ := hstep
            subst h1 h2
            simpa [wellCorrelated, activeQuery] using IH
        | outputClosed =>
          simp only [analyzerStep, Option.some.injEq, Prod.mk.injEq] at hstep
          obtain ⟨h1, h2⟩ := hstep
          subst h1 h2
          obtain ⟨hevs, hp⟩ := analyzerRun_stopped evs _ hrun
          have houts1 : outs1 = [] := congrArg Prod.snd hp
          subst houts1
          rfl
        | request req2 => simp [analyzerStep] at hstep
        | ctxDone =>
          simp only [analyzerStep, Option.some.injEq, Prod.mk.injEq] at hstep
          obtain ⟨h1, h2⟩ := hstep
          subst h1 h2
          obtain ⟨hevs, hp⟩ := analyzerRun_stopped evs _ hrun
          have houts1 : outs1 = [] := congrArg Prod.snd hp
          subst houts1
          rfl

lemma wellCorrelated_delivered_contains (outs : List AnalyzerOutput) :
    ∀ (active : Option String), wellCorrelated active outs = true →
      ∀ (text q : String), AnalyzerOutput.delivered text q ∈ outs →
        stringsContains text q = true := by
  induction outs with
  | nil =>
    intro active _ text q hmem
    cases hmem
  | cons o rest ih =>
    intro active hw text q hmem
    cases o with
    | logged t =>
      rcases List.mem_cons.mp hmem with heq | hmem2
      · cases heq
      · exact ih active (by simpa [wellCorrelated] using hw) text q hmem2
    | acceptedAck q2 =>
      simp only [wellCorrelated, Bool.and_eq_true, beq_iff_eq] at hw
      rcases List.mem_cons.mp hmem with heq | hmem2
      · cases heq
      · exact ih (some q2) hw.2 text q hmem2
    | delivered t2 q2 =>
      simp only [wellCorrelated, Bool.and_eq_true, beq_iff_eq] at hw
      rcases List.mem_cons.mp hmem with heq | hmem2
      · obtain ⟨het, heq2⟩ := AnalyzerOutput.delivered.inj heq
        subst het heq2
        exact hw.1.2
      · exact ih none hw.2 text q hmem2

/-- C6: along every admissible run started with a free slot, the
analyzer's outputs are well-correlated — every acceptance happens
with the slot free, and every delivery carries the query of the
then-current (most recently accepted, not yet resolved) request
together with a line that contains it — and consequently every
delivered line contains the in-flight request's substring; a line
matching only a stale, already-resolved, or not-yet-accepted
substring is never delivered. -/
theorem analyzer_no_crosstalk (evs : List AnalyzerEvent) (s' : AnalyzerState)
    (outs : List AnalyzerOutput)
    (h : analyzerRun (.running none) evs = some (s', outs)) :
    wellCorrelated none outs = true ∧
      ∀ (text q : String), AnalyzerOutput.delivered text q ∈ outs →
        stringsContains text q = true := by
  have hw : wellCorrelated none outs = true := by
    have := wellCorrelated_run evs (.running none) s' outs h
    simpa [activeQuery] using this
  exact ⟨hw, wellCorrelated_delivered_contains outs none hw⟩

/-- Witness for C6: a run in which a line matching the first, already
resolved request's substring arrives while a second request is in
flight: it is only logged, never delivered. -/
theorem analyzer_no_crosstalk_witness :
    analyzerRun (.running none)
        [.request { query := "save-off ack" },
         .outputLine "the save-off ack line",
         .request { query := "no such line" },
         .outputLine "another save-off ack line"] =
      some (.running (some { query := "no such line" }),
        [.acceptedAck "save-off ack",
         .delivered "the save-off ack line" "save-off ack",
         .logged "the save-off ack line",
         .acceptedAck "no such line",
         .logged "another save-off ack line"]) ∧
      wellCorrelated none
          [.acceptedAck "save-off ack",
           .delivered "the save-off ack line" "save-off ack",
           .logged "the save-off ack line",
           .acceptedAck "no such line",
           .logged "another save-off ack line"] = true :=
  ⟨by decide,
   (analyzer_no_crosstalk
     [.request { query := "save-off ack" },
      .outputLine "the save-off ack line",
      .request { query := "no such line" },
      .outputLine "another save-off ack line"]
     (.running (some { query := "no such line" }))
     [.acceptedAck "save-off ack",
      .delivered "the save-off ack line" "save-off ack",
      .logged "the save-off ack line",
      .acceptedAck "no such line",
      .logged "another save-off ack line"] (by decide)).1⟩

/-! ## Theorems about the `Duration` JSON round trip -/

lemma digitChar_isDigit (d : Nat) (hd : d < 10) : (Char.ofNat (d + 48)).isDigit = true := by
  interval_cases d <;> decide

lemma digitChar_toNat (d : Nat) (hd : d < 10) : (Char.ofNat (d + 48)).toNat - 48 = d := by
  interval_cases d <;> decide

lemma digitsVal_nil (x : Nat) : digitsVal x [] = x := rfl

lemma digitsVal_cons (x : Nat) (c : Char) (ds : List Char) :
    digitsVal x (c :: ds) = digitsVal (x * 10 + (c.toNat - 48)) ds := rfl

lemma digitsVal_append (x : Nat) (ds1 ds2 : List Char) :
    digitsVal x (ds1 ++ ds2) = digitsVal (digitsVal x ds1) ds2 :=
  List.foldl_append _ _ ds1 ds2

lemma le_digitsVal (x : Nat) (ds : List Char) : x ≤ digitsVal x ds := by
  induction ds generalizing x with
  | nil => exact Nat.le_refl x
  | cons c ds ih =>
    rw [digitsVal_cons]
    exact le_trans (by omega) (ih (x * 10 + (c.toNat - 48)))

lemma digitsVal_digitList (x : Nat) (L : List Nat) (hL : ∀ d ∈ L, d < 10) :
    digitsVal x (L.reverse.map fun d => Char.ofNat (d + 48)) =
      x * 10 ^ L.length + Nat.ofDigits 10 L := by
  induction L generalizing x with
  | nil => simp [digitsVal, Nat.ofDigits_nil]
  | cons d L ih =>
    rw [List.reverse_cons, List.map_append, digitsVal_append]
    rw [ih x (fun e he => hL e (List.mem_cons_of_mem _ he))]
    simp only [List.map_cons, List.map_nil]
    rw [digitsVal_cons, digitsVal_nil]
    rw [digitChar_toNat d (hL d (List.mem_cons_self _ _))]
    rw [Nat.ofDigits_cons]
    simp only [List.length_cons, pow_succ]
    ring

lemma fmtInt_ne_nil (v : Nat) : fmtInt v ≠ [] := by
  unfold fmtInt
  split
  · exact fun h => List.noConfusion h
  · rename_i hv
    intro h
    have : Nat.digits 10 v ≠ [] := Nat.digits_ne_nil_iff_ne_zero.2 hv
    simp only [List.map_eq_nil_iff, List.reverse_eq_nil_iff] at h
    exact this h

lemma fmtInt_all_digits (v : Nat) : ∀ c ∈ fmtInt v, c.isDigit = true := by
  intro c hc
  unfold fmtInt at hc
  split at hc
  · rcases List.mem_singleton.mp hc with rfl
    decide
  · rcases List.mem_map.mp hc with ⟨d, hd, rfl⟩
    exact digitChar_isDigit d
      (Nat.digits_lt_base (by norm_num) (List.mem_reverse.mp hd))

lemma digitsVal_fmtInt_gen (x v : Nat) :
    digitsVal x (fmtInt v) = x * 10 ^ (fmtInt v).length + v := by
  unfold fmtInt
  split
  · rename_i hv
    subst hv
    simp [digitsVal]
  · rw [digitsVal_digitList x _ (fun d hd => Nat.digits_lt_base (by norm_num) hd)]
    rw [Nat.ofDigits_digits]
    simp

lemma digitsVal_fmtInt (v : Nat) : digitsVal 0 (fmtInt v) = v := by
  rw [digitsVal_fmtInt_gen]
  simp

lemma twoPow63_eq : twoPow63 = 9223372036854775808 := rfl

lemma leadingInt_spec (ds : List Char) (rest : List Char) (x : Nat)
    (hds : ∀ c ∈ ds, c.isDigit = true)
    (hrest : ∀ c, rest.head? = some c → c.isDigit = false)
    (hb : digitsVal x ds ≤ twoPow63) :
    leadingInt x (ds ++ rest) = some (digitsVal x ds, rest) := by
  induction ds generalizing x with
  | nil =>
    cases rest with
    | nil => rfl
    | cons c t =>
      have hc := hrest c rfl
      simp [leadingInt, hc, digitsVal]
  | cons c ds ih =>
    have hc : c.isDigit = true := hds c (List.mem_cons_self _ _)
    have hds2 : ∀ e ∈ ds, e.isDigit = true := fun e he => hds e (List.mem_cons_of_mem _ he)
    rw [List.cons_append]
    have hval : x * 10 + (c.toNat - 48) ≤ digitsVal x (c :: ds) := by
      rw [digitsVal_cons]
      exact le_digitsVal _ _
    have hle : x * 10 + (c.toNat - 48) ≤ twoPow63 := le_trans hval hb
    have h1 : ¬ (x > twoPow63 / 10) := by
      have hx10 : x * 10 ≤ twoPow63 := by omega
      have : x ≤ twoPow63 / 10 := (Nat.le_div_iff_mul_le (by norm_num)).2 hx10
      omega
    have h2 : ¬ (x * 10 + (c.toNat - 48) > twoPow63) := by omega
    simp only [leadingInt, hc, if_true, if_neg h1, if_neg h2]
    rw [digitsVal_cons]
    exact ih _ hds2 (by rw [← digitsVal_cons]; exact hb)

lemma leadingFraction_spec (ds : List Char) (rest : List Char) (x scale : Nat)
    (hds : ∀ c ∈ ds, c.isDigit = true)
    (hrest : ∀ c, rest.head? = some c → c.isDigit = false)
    (hb : digitsVal x ds ≤ (twoPow63 - 1) / 10) :
    leadingFraction x scale false (ds ++ rest) =
      (digitsVal x ds, scale * 10 ^ ds.length, rest) := by
  induction ds generalizing x scale with
  | nil =>
    cases rest with
    | nil => simp [leadingFraction, digitsVal]
    | cons c t =>
      have hc := hrest c rfl
      simp [leadingFraction, hc, digitsVal]
  | cons c ds ih =>
    have hc : c.isDigit = true := hds c (List.mem_cons_self _ _)
    have hds2 : ∀ e ∈ ds, e.isDigit = true := fun e he => hds e (List.mem_cons_of_mem _ he)
    rw [List.cons_append]
    have hval : x * 10 + (c.toNat - 48) ≤ digitsVal x (c :: ds) := by
      rw [digitsVal_cons]
      exact le_digitsVal _ _
    have hxval : x ≤ digitsVal x (c :: ds) := le_digitsVal _ _
    have h1 : ¬ (x > (twoPow63 - 1) / 10) := by
      have := le_trans hxval hb
      omega
    have h2 : ¬ (x * 10 + (c.toNat - 48) > twoPow63) := by
      have := le_trans hval hb
      rw [twoPow63_eq] at *
      omega
    simp only [leadingFraction, hc, if_true, Bool.false_eq_true, if_false, if_neg h1, if_neg h2]
    rw [digitsVal_cons]
    rw [ih _ _ hds2 (by rw [← digitsVal_cons]; exact hb)]
    simp only [List.length_cons, pow_succ]
    ring_nf

lemma mod_pow_succ10 (v p : Nat) : v % 10 ^ (p + 1) = (v / 10 % 10 ^ p) * 10 + v % 10 := by
  have h := @Nat.mod_mul 10 (10 ^ p) v
  have hp : 10 ^ (p + 1) = 10 * 10 ^ p := by rw [pow_succ]; ring
  rw [hp]
  omega

lemma div_div_pow10 (v p : Nat) : v / 10 / 10 ^ p = v / 10 ^ (p + 1) := by
  rw [Nat.div_div_eq_div_mul]
  congr 1
  rw [pow_succ]
  ring

lemma fmtFrac_print (p : Nat) : ∀ (v : Nat) (acc : List Char), ∃ fd : List Char,
    fmtFrac v p acc true = ('.' :: (fd ++ acc), v / 10 ^ p) ∧
      (∀ c ∈ fd, c.isDigit = true) ∧ fd.length = p ∧ digitsVal 0 fd = v % 10 ^ p := by
  induction p with
  | zero =>
    intro v acc
    refine ⟨[], ?_, fun c hc => absurd hc (List.not_mem_nil c), rfl, ?_⟩
    · simp [fmtFrac]
    · simp [digitsVal, Nat.mod_one]
  | succ p ih =>
    intro v acc
    obtain ⟨fd, heq, hdig, hlen, hval⟩ := ih (v / 10) (Char.ofNat (v % 10 + 48) :: acc)
    refine ⟨fd ++ [Char.ofNat (v % 10 + 48)], ?_, ?_, ?_, ?_⟩
    · show fmtFrac v (p + 1) acc true = _
      simp only [fmtFrac, Bool.true_or, if_true]
      rw [heq]
      rw [List.append_assoc, List.singleton_append, div_div_pow10]
    · intro c hc
      rcases List.mem_append.mp hc with h | h
      · exact hdig c h
      · rcases List.mem_singleton.mp h with rfl
        exact digitChar_isDigit _ (Nat.mod_lt v (by norm_num))
    · simp [hlen]
    · rw [digitsVal_append, hval, digitsVal_cons, digitsVal_nil]
      rw [digitChar_toNat _ (Nat.mod_lt v (by norm_num))]
      rw [mod_pow_succ10]

lemma fmtFrac_zero (p : Nat) : ∀ (v : Nat) (acc : List Char), v % 10 ^ p = 0 →
    fmtFrac v p acc false = (acc, v / 10 ^ p) := by
  induction p with
  | zero =>
    intro v acc _
    simp [fmtFrac]
  | succ p ih =>
    intro v acc h
    have h10 : v % 10 = 0 := by
      have hd : (10 : Nat) ∣ 10 ^ (p + 1) := dvd_pow_self 10 (Nat.succ_ne_zero p)
      have := Nat.mod_mod_of_dvd v hd
      omega
    have hrec : (v / 10) % 10 ^ p = 0 := by
      have := mod_pow_succ10 v p
      omega
    simp only [fmtFrac, h10]
    norm_num
    rw [ih (v / 10) acc hrec, div_div_pow10]

lemma fmtFrac_pos (p : Nat) : ∀ (v : Nat) (acc : List Char), v % 10 ^ p ≠ 0 →
    ∃ fd : List Char,
      fmtFrac v p acc false = ('.' :: (fd ++ acc), v / 10 ^ p) ∧
        (∀ c ∈ fd, c.isDigit = true) ∧ 1 ≤ fd.length ∧ fd.length ≤ p ∧
        digitsVal 0 fd * 10 ^ (p - fd.length) = v % 10 ^ p := by
  induction p with
  | zero =>
    intro v acc h
    exact absurd (Nat.mod_one v) h
  | succ p ih =>
    intro v acc h
    by_cases h10 : v % 10 = 0
    · have hrec : (v / 10) % 10 ^ p ≠ 0 := by
        have := mod_pow_succ10 v p
        omega
      obtain ⟨fd, heq, hdig, hge, hle, hval⟩ := ih (v / 10) acc hrec
      refine ⟨fd, ?_, hdig, hge, le_trans hle (Nat.le_succ p), ?_⟩
      · show fmtFrac v (p + 1) acc false = _
        simp only [fmtFrac, h10]
        norm_num
        rw [heq, div_div_pow10]
      · have hexp : p + 1 - fd.length = (p - fd.length) + 1 := by omega
        rw [hexp, pow_succ, ← Nat.mul_assoc, hval]
        have := mod_pow_succ10 v p
        omega
    · obtain ⟨fd, heq, hdig, hlen, hval⟩ := fmtFrac_print p (v / 10) (Char.ofNat (v % 10 + 48) :: acc)
      refine ⟨fd ++ [Char.ofNat (v % 10 + 48)], ?_, ?_, ?_, ?_, ?_⟩
      · show fmtFrac v (p + 1) acc false = _
        have hp1 : (false || decide (v % 10 ≠ 0)) = true := by
          simp [h10]
        simp only [fmtFrac, hp1, if_true]
        rw [heq]
        rw [List.append_assoc, List.singleton_append, div_div_pow10]
      · intro c hc
        rcases List.mem_append.mp hc with hm | hm
        · exact hdig c hm
        · rcases List.mem_singleton.mp hm with rfl
          exact digitChar_isDigit _ (Nat.mod_lt v (by norm_num))
      · simp
      · simp [hlen]
      · simp only [List.length_append, List.length_singleton, hlen]
        have hexp : p + 1 - (p + 1) = 0 := by omega
        rw [hexp, pow_zero, Nat.mul_one]
        rw [digitsVal_append, hval, digitsVal_cons, digitsVal_nil]
        rw [digitChar_toNat _ (Nat.mod_lt v (by norm_num))]
        rw [mod_pow_succ10]

lemma takeWhile_append_all (p : Char → Bool) (l1 l2 : List Char)
    (h : ∀ c ∈ l1, p c = true) :
    (l1 ++ l2).takeWhile p = l1 ++ l2.takeWhile p := by
  induction l1 with
  | nil => rfl
  | cons c t ih =>
    have hc := h c (List.mem_cons_self _ _)
    simp only [List.cons_append, List.takeWhile_cons, hc, if_true]
    rw [ih (fun e he => h e (List.mem_cons_of_mem _ he))]

lemma takeWhile_head_false (p : Char → Bool) (l : List Char)
    (h : ∀ c, l.head? = some c → p c = false) : l.takeWhile p = [] := by
  cases l with
  | nil => rfl
  | cons c t =>
    have hc := h c rfl
    simp [List.takeWhile_cons, hc]

lemma isUnitChar_of_digit (c : Char) (h : c.isDigit = true) : isUnitChar c = false := by
  simp [isUnitChar, h]

lemma not_digit_of_isUnitChar (c : Char) (h : isUnitChar c = true) : c.isDigit = false := by
  simp only [isUnitChar, Bool.not_eq_true', Bool.or_eq_false_iff] at h
  exact h.2

lemma ne_dot_of_isUnitChar (c : Char) (h : isUnitChar c = true) : ¬ (c = '.') := by
  simp only [isUnitChar, Bool.not_eq_true', Bool.or_eq_false_iff, decide_eq_false_iff_not] at h
  exact h.1

lemma head_append_ne_nil (l1 l2 : List Char) (h : l1 ≠ []) :
    (l1 ++ l2).head? = l1.head? := by
  cases l1 with
  | nil => exact absurd rfl h
  | cons c t => rfl

lemma fmtInt_head_digit (v : Nat) (l2 : List Char) :
    ∀ c, (fmtInt v ++ l2).head? = some c → c.isDigit = true := by
  intro c hc
  rw [head_append_ne_nil _ _ (fmtInt_ne_nil v)] at hc
  obtain ⟨c0, t0, h0⟩ := List.exists_cons_of_ne_nil (fmtInt_ne_nil v)
  rw [h0] at hc
  have : c = c0 := by
    simpa [List.head?] using hc.symm
  subst this
  exact fmtInt_all_digits v c (by rw [h0]; exact List.mem_cons_self _ _)

lemma unitScan_spec (u rest : List Char)
    (hu_chars : ∀ c ∈ u, isUnitChar c = true)
    (hrest : ∀ c, rest.head? = some c → isUnitChar c = false) :
    unitScan (u ++ rest) = (u, rest) := by
  unfold unitScan
  have hTW : ((u ++ rest).takeWhile isUnitChar) = u := by
    rw [takeWhile_append_all _ _ _ hu_chars, takeWhile_head_false _ _ hrest,
      List.append_nil]
  rw [hTW]
  simp only [List.take_left, List.drop_left]
/-- `parseComponent` on `digits ++ unit ++ rest` (no fraction). -/
lemma parseComponent_int (ds unitChars rest : List Char) (unit : Nat)
    (hds : ∀ c ∈ ds, c.isDigit = true) (hds_ne : ds ≠ [])
    (hu : unitMap unitChars = some unit)
    (hu_chars : ∀ c ∈ unitChars, isUnitChar c = true)
    (hu_ne : unitChars ≠ [])
    (hrest : ∀ c, rest.head? = some c → isUnitChar c = false)
    (hv : digitsVal 0 ds ≤ twoPow63 / unit) :
    parseComponent (ds ++ unitChars ++ rest) = some (digitsVal 0 ds * unit, rest) := by
  obtain ⟨d0, ds', hdseq⟩ := List.exists_cons_of_ne_nil hds_ne
  have hd0 : d0.isDigit = true := hds d0 (by rw [hdseq]; exact List.mem_cons_self _ _)
  have hguard : isUnitChar d0 = false := isUnitChar_of_digit d0 hd0
  have hc0 : ∀ c, (unitChars ++ rest).head? = some c → c.isDigit = false := by
    intro c hc
    rw [head_append_ne_nil _ _ hu_ne] at hc
    exact not_digit_of_isUnitChar c (hu_chars c (List.mem_of_mem_head? hc))
  have hLI : leadingInt 0 (ds ++ (unitChars ++ rest)) =
      some (digitsVal 0 ds, unitChars ++ rest) :=
    leadingInt_spec ds (unitChars ++ rest) 0 hds hc0 (le_trans hv (Nat.div_le_self _ _))
  have hPF : parseFraction (unitChars ++ rest) = (0, 1, unitChars ++ rest, false) := by
    obtain ⟨c0, ut, hueq⟩ := List.exists_cons_of_ne_nil hu_ne
    have hdot : ¬ (c0 = '.') :=
      ne_dot_of_isUnitChar c0 (hu_chars c0 (by rw [hueq]; exact List.mem_cons_self _ _))
    rw [hueq]
    simp [parseFraction, hdot]
  have hUS : unitScan (unitChars ++ rest) = (unitChars, rest) :=
    unitScan_spec unitChars rest hu_chars hrest
  have hpre : ((unitChars ++ rest).length ≠ (ds ++ (unitChars ++ rest)).length) := by
    rw [hdseq]
    simp only [List.length_append, List.length_cons]
    omega
  have hpredec : decide ((unitChars ++ rest).length ≠ (ds ++ (unitChars ++ rest)).length)
      = true := decide_eq_true hpre
  have hvg : ¬ (digitsVal 0 ds > twoPow63 / unit) := by omega
  have hsplit : ds ++ unitChars ++ rest = d0 :: (ds' ++ (unitChars ++ rest)) := by
    simp [hdseq]
  rw [hsplit]
  simp only [parseComponent]
  rw [hguard]
  simp only [Bool.false_eq_true, if_false]
  rw [← List.cons_append, ← hdseq, hLI]
  simp only [hPF, hUS, hpredec, Bool.not_true, Bool.not_false, Bool.and_true, Bool.false_and,
    Bool.false_eq_true, if_false, hu]
  rw [if_neg hu_ne, if_neg hvg]
  norm_num

/-- `parseComponent` on `digits ++ '.' ++ fraction ++ unit ++ rest`. -/
lemma parseComponent_frac (ds fd unitChars rest : List Char) (unit : Nat)
    (hds : ∀ c ∈ ds, c.isDigit = true) (hds_ne : ds ≠ [])
    (hfd : ∀ c ∈ fd, c.isDigit = true)
    (hu : unitMap unitChars = some unit)
    (hu_chars : ∀ c ∈ unitChars, isUnitChar c = true)
    (hu_ne : unitChars ≠ [])
    (hrest : ∀ c, rest.head? = some c → isUnitChar c = false)
    (hv : digitsVal 0 ds ≤ twoPow63 / unit)
    (hfb : digitsVal 0 fd ≤ (twoPow63 - 1) / 10)
    (hfpos : 0 < digitsVal 0 fd)
    (hov : digitsVal 0 ds * unit + digitsVal 0 fd * unit / 10 ^ fd.length ≤ twoPow63) :
    parseComponent (ds ++ '.' :: (fd ++ (unitChars ++ rest))) =
      some (digitsVal 0 ds * unit + digitsVal 0 fd * unit / 10 ^ fd.length, rest) := by
  obtain ⟨d0, ds', hdseq⟩ := List.exists_cons_of_ne_nil hds_ne
  have hd0 : d0.isDigit = true := hds d0 (by rw [hdseq]; exact List.mem_cons_self _ _)
  have hguard : isUnitChar d0 = false := isUnitChar_of_digit d0 hd0
  have hc0 : ∀ c, (unitChars ++ rest).head? = some c → c.isDigit = false := by
    intro c hc
    rw [head_append_ne_nil _ _ hu_ne] at hc
    exact not_digit_of_isUnitChar c (hu_chars c (List.mem_of_mem_head? hc))
  have hLI : leadingInt 0 (ds ++ ('.' :: (fd ++ (unitChars ++ rest)))) =
      some (digitsVal 0 ds, '.' :: (fd ++ (unitChars ++ rest))) := by
    apply leadingInt_spec _ _ _ hds
    · intro c hc
      have hcd : c = '.' := by simpa [List.head?] using hc.symm
      subst hcd
      decide
    · exact le_trans hv (Nat.div_le_self _ _)
  have hLF : leadingFraction 0 1 false (fd ++ (unitChars ++ rest)) =
      (digitsVal 0 fd, 1 * 10 ^ fd.length, unitChars ++ rest) :=
    leadingFraction_spec fd (unitChars ++ rest) 0 1 hfd hc0 hfb
  have hPF : parseFraction ('.' :: (fd ++ (unitChars ++ rest))) =
      (digitsVal 0 fd, 10 ^ fd.length, unitChars ++ rest,
        decide ((unitChars ++ rest).length ≠ (fd ++ (unitChars ++ rest)).length)) := by
    simp only [parseFraction, if_pos, hLF, Nat.one_mul]
  have hUS : unitScan (unitChars ++ rest) = (unitChars, rest) :=
    unitScan_spec unitChars rest hu_chars hrest
  have hpre : (('.' :: (fd ++ (unitChars ++ rest))).length ≠
      (ds ++ ('.' :: (fd ++ (unitChars ++ rest)))).length) := by
    rw [hdseq]
    simp only [List.length_append, List.length_cons]
    omega
  have hpredec : decide (('.' :: (fd ++ (unitChars ++ rest))).length ≠
      (ds ++ ('.' :: (fd ++ (unitChars ++ rest)))).length) = true := decide_eq_true hpre
  have hvg : ¬ (digitsVal 0 ds > twoPow63 / unit) := by omega
  have hovg : ¬ (digitsVal 0 ds * unit + digitsVal 0 fd * unit / 10 ^ fd.length > twoPow63) := by
    omega
  have hsplit : ds ++ '.' :: (fd ++ (unitChars ++ rest)) =
      d0 :: (ds' ++ ('.' :: (fd ++ (unitChars ++ rest)))) := by
    simp [hdseq]
  rw [hsplit]
  simp only [parseComponent]
  rw [hguard]
  simp only [Bool.false_eq_true, if_false]
  rw [← List.cons_append, ← hdseq, hLI]
  simp only [hPF, hUS, hpredec, Bool.not_true, Bool.not_false, Bool.and_true, Bool.false_and,
    Bool.false_eq_true, if_false, hu]
  rw [if_neg hu_ne, if_neg hvg, if_pos hfpos, if_neg hovg]

lemma parseLoop_nil (fuel d : Nat) : parseLoop fuel d [] = some d := by
  cases fuel <;> rfl

lemma parseLoop_step (fuel d v : Nat) (s rest : List Char) (hs : s ≠ [])
    (hc : parseComponent s = some (v, rest)) (hov : ¬ (d + v > twoPow63)) :
    parseLoop (fuel + 1) d s = parseLoop fuel (d + v) rest := by
  obtain ⟨c, t, rfl⟩ := List.exists_cons_of_ne_nil hs
  simp only [parseLoop, hc, if_neg hov]

lemma parseLoop_ge_step (fuel d v : Nat) (s rest : List Char) (hs : s ≠ [])
    (hc : parseComponent s = some (v, rest)) (hov : ¬ (d + v > twoPow63))
    (hfuel : 1 ≤ fuel) :
    parseLoop fuel d s = parseLoop (fuel - 1) (d + v) rest := by
  obtain ⟨k, rfl⟩ : ∃ k, fuel = k + 1 := ⟨fuel - 1, by omega⟩
  rw [Nat.add_sub_cancel]
  exact parseLoop_step k d v s rest hs hc hov

lemma parseLoop_run1 (s : List Char) (v : Nat) (hs : s ≠ [])
    (hc : parseComponent s = some (v, [])) (hov : v ≤ twoPow63) :
    parseLoop s.length 0 s = some v := by
  have hlen : 1 ≤ s.length := List.length_pos.2 hs
  rw [parseLoop_ge_step s.length 0 v s [] hs hc (by omega) hlen]
  rw [Nat.zero_add, parseLoop_nil]

lemma parseLoop_run2 (s rest1 : List Char) (v1 v2 : Nat)
    (hs : s ≠ []) (h1 : parseComponent s = some (v1, rest1))
    (hr1 : rest1 ≠ []) (h2 : parseComponent rest1 = some (v2, []))
    (hl1 : rest1.length + 1 ≤ s.length)
    (ho1 : v1 ≤ twoPow63) (ho2 : v1 + v2 ≤ twoPow63) :
    parseLoop s.length 0 s = some (v1 + v2) := by
  have hlen1 : 1 ≤ rest1.length := List.length_pos.2 hr1
  rw [parseLoop_ge_step s.length 0 v1 s rest1 hs h1 (by omega) (by omega)]
  rw [Nat.zero_add]
  rw [parseLoop_ge_step (s.length - 1) v1 v2 rest1 [] hr1 h2 (by omega) (by omega)]
  rw [parseLoop_nil]

lemma parseLoop_run3 (s rest1 rest2 : List Char) (v1 v2 v3 : Nat)
    (hs : s ≠ []) (h1 : parseComponent s = some (v1, rest1))
    (hr1 : rest1 ≠ []) (h2 : parseComponent rest1 = some (v2, rest2))
    (hr2 : rest2 ≠ []) (h3 : parseComponent rest2 = some (v3, []))
    (hl1 : rest1.length + 1 ≤ s.length) (hl2 : rest2.length + 1 ≤ rest1.length)
    (ho1 : v1 ≤ twoPow63) (ho2 : v1 + v2 ≤ twoPow63) (ho3 : v1 + v2 + v3 ≤ twoPow63) :
    parseLoop s.length 0 s = some (v1 + v2 + v3) := by
  have hlen2 : 1 ≤ rest2.length := List.length_pos.2 hr2
  rw [parseLoop_ge_step s.length 0 v1 s rest1 hs h1 (by omega) (by omega)]
  rw [Nat.zero_add]
  rw [parseLoop_ge_step (s.length - 1) v1 v2 rest1 rest2 hr1 h2 (by omega) (by omega)]
  rw [parseLoop_ge_step (s.length - 1 - 1) (v1 + v2) v3 rest2 [] hr2 h3 (by omega) (by omega)]
  rw [parseLoop_nil]

lemma frac_div (f len p : Nat) (hlen : len ≤ p) :
    f * 10 ^ p / 10 ^ len = f * 10 ^ (p - len) := by
  have hp : (10 : Nat) ^ p = 10 ^ (p - len) * 10 ^ len := by
    rw [← pow_add]
    congr 1
    omega
  rw [hp, ← Nat.mul_assoc, Nat.mul_div_cancel _ (Nat.pos_pow_of_pos len (by norm_num))]

lemma fmtFrac_snd (w prec : Nat) : (fmtFrac w prec [] false).2 = w / 10 ^ prec := by
  by_cases hF : w % 10 ^ prec = 0
  · rw [fmtFrac_zero prec w [] hF]
  · obtain ⟨fd, heq, -, -, -, -⟩ := fmtFrac_pos prec w [] hF
    rw [heq]

lemma fmtInt_append_ne_nil (v : Nat) (l : List Char) : fmtInt v ++ l ≠ [] := by
  intro h
  exact fmtInt_ne_nil v (List.append_eq_nil.mp h).1

lemma append3_ne_nil (v : Nat) (a b : List Char) : fmtInt v ++ a ++ b ≠ [] := by
  simp [List.append_eq_nil, fmtInt_ne_nil]

lemma fmtInt_head_not_unit (v : Nat) (l2 : List Char) :
    ∀ c, (fmtInt v ++ l2).head? = some c → isUnitChar c = false :=
  fun c hc => isUnitChar_of_digit c (fmtInt_head_digit v l2 c hc)

lemma head3_digit (v : Nat) (a b : List Char) :
    ∀ c, (fmtInt v ++ a ++ b).head? = some c → isUnitChar c = false := by
  intro c hc
  rw [head_append_ne_nil _ _ (fmtInt_append_ne_nil v a)] at hc
  exact fmtInt_head_not_unit v a c hc

lemma head3_isDigit (v : Nat) (a b : List Char) :
    ∀ c, (fmtInt v ++ a ++ b).head? = some c → c.isDigit = true := by
  intro c hc
  rw [head_append_ne_nil _ _ (fmtInt_append_ne_nil v a)] at hc
  exact fmtInt_head_digit v a c hc

lemma one_le_fmtInt_length (v : Nat) : 1 ≤ (fmtInt v).length :=
  List.length_pos.2 (fmtInt_ne_nil v)

/-- `parseComponent` on `fmtInt n ++ (fraction of w to prec digits) ++ unit`,
for a unit worth `10 ^ prec` nanoseconds. -/
lemma frac_component_parse (w prec n : Nat) (unitChars : List Char) (unit : Nat)
    (hunit : unit = 10 ^ prec) (hprec : prec ≤ 9)
    (hu : unitMap unitChars = some unit)
    (hu_chars : ∀ c ∈ unitChars, isUnitChar c = true)
    (hu_ne : unitChars ≠ [])
    (hn : n ≤ twoPow63 / unit)
    (hov : n * unit + w % 10 ^ prec ≤ twoPow63) :
    parseComponent (fmtInt n ++ (fmtFrac w prec [] false).1 ++ unitChars) =
      some (n * unit + w % 10 ^ prec, []) := by
  by_cases hF : w % 10 ^ prec = 0
  · rw [fmtFrac_zero prec w [] hF]
    have hshape : fmtInt n ++ ([] : List Char) ++ unitChars =
        fmtInt n ++ (unitChars ++ []) := by simp
    rw [hshape]
    rw [show fmtInt n ++ (unitChars ++ []) = fmtInt n ++ unitChars ++ [] from
      (List.append_assoc _ _ _).symm]
    rw [parseComponent_int (fmtInt n) unitChars [] unit (fmtInt_all_digits n)
      (fmtInt_ne_nil n) hu hu_chars hu_ne (fun c hc => by cases hc)
      (by rw [digitsVal_fmtInt]; exact hn)]
    rw [digitsVal_fmtInt, hF, Nat.add_zero]
  · obtain ⟨fd, heq, hdig, hge, hle, hval⟩ := fmtFrac_pos prec w [] hF
    rw [heq]
    simp only [List.append_nil]
    have hshape : fmtInt n ++ ('.' :: fd) ++ unitChars =
        fmtInt n ++ '.' :: (fd ++ (unitChars ++ [])) := by simp
    rw [hshape]
    have hfdlen : fd.length ≤ prec := hle
    have hwlt : w % 10 ^ prec < 10 ^ prec := Nat.mod_lt w (Nat.pos_pow_of_pos prec (by norm_num))
    have hfdle : digitsVal 0 fd ≤ w % 10 ^ prec := by
      calc digitsVal 0 fd ≤ digitsVal 0 fd * 10 ^ (prec - fd.length) :=
            Nat.le_mul_of_pos_right _ (Nat.pos_pow_of_pos _ (by norm_num))
        _ = w % 10 ^ prec := hval
    have hfb : digitsVal 0 fd ≤ (twoPow63 - 1) / 10 := by
      have h10 : (10 : Nat) ^ prec ≤ 10 ^ 9 := Nat.pow_le_pow_right (by norm_num) hprec
      have : digitsVal 0 fd < 10 ^ 9 := lt_of_le_of_lt hfdle (lt_of_lt_of_le hwlt h10)
      rw [twoPow63_eq]
      norm_num at this ⊢
      omega
    have hfpos : 0 < digitsVal 0 fd := by
      rcases Nat.eq_zero_or_pos (digitsVal 0 fd) with h0 | hpos
      · exfalso
        rw [h0, Nat.zero_mul] at hval
        exact hF hval.symm
      · exact hpos
    have hdivval : digitsVal 0 fd * unit / 10 ^ fd.length = w % 10 ^ prec := by
      rw [hunit, frac_div _ _ _ hfdlen, hval]
    have hov' : digitsVal 0 (fmtInt n) * unit + digitsVal 0 fd * unit / 10 ^ fd.length
        ≤ twoPow63 := by
      rw [digitsVal_fmtInt, hdivval]
      exact hov
    rw [parseComponent_frac (fmtInt n) fd unitChars [] unit (fmtInt_all_digits n)
      (fmtInt_ne_nil n) hdig hu hu_chars hu_ne (fun c hc => by cases hc)
      (by rw [digitsVal_fmtInt]; exact hn) hfb hfpos hov']
    rw [digitsVal_fmtInt, hdivval]

lemma durationCore_parse (u : Nat) (hu : u ≤ twoPow63) :
    parseLoop (durationCore u).length 0 (durationCore u) = some u ∧
      2 ≤ (durationCore u).length ∧
      ∀ c, (durationCore u).head? = some c → c.isDigit = true := by
  have hS : Second = 1000000000 := rfl
  have hMic : Microsecond = 1000 := rfl
  have hMil : Millisecond = 1000000 := rfl
  have hMin : Minute = 60000000000 := rfl
  have hH : Hour = 3600000000000 := rfl
  have h63 : twoPow63 = 9223372036854775808 := rfl
  by_cases hsec : u < Second
  · by_cases hmic : u < Microsecond
    · -- nanoseconds: `fmtInt u ++ "ns"`
      have hcore : durationCore u = fmtInt u ++ ['n', 's'] := by
        unfold durationCore
        rw [if_pos hsec, if_pos hmic]
      rw [hcore]
      constructor
      · have hc := parseComponent_int (fmtInt u) ['n', 's'] [] 1 (fmtInt_all_digits u)
          (fmtInt_ne_nil u) rfl (by decide) (by decide) (fun c hc => by cases hc)
          (by rw [digitsVal_fmtInt]; omega)
        rw [List.append_nil, digitsVal_fmtInt, Nat.mul_one] at hc
        exact parseLoop_run1 _ _ (fmtInt_append_ne_nil _ _) hc hu
      · refine ⟨?_, fmtInt_head_digit u ['n', 's']⟩
        have := one_le_fmtInt_length u
        simp only [List.length_append, List.length_cons, List.length_nil]
        omega
    · by_cases hmil : u < Millisecond
      · -- microseconds: `fmtInt (u/1000) ++ fraction ++ "µs"`
        have hcore : durationCore u =
            fmtInt (u / 10 ^ 3) ++ (fmtFrac u 3 [] false).1 ++ ['µ', 's'] := by
          unfold durationCore
          rw [if_pos hsec, if_neg hmic, if_pos hmil, fmtFrac_snd]
        rw [hcore]
        have hval : u / 10 ^ 3 * Microsecond + u % 10 ^ 3 = u := by
          rw [hMic]; omega
        have hc := frac_component_parse u 3 (u / 10 ^ 3) ['µ', 's'] Microsecond
          (by rw [hMic]; norm_num) (by norm_num) rfl (by decide) (by decide)
          (by rw [hMic, h63]; omega)
          (by rw [hval]; exact hu)
        rw [hval] at hc
        constructor
        · exact parseLoop_run1 _ _ (append3_ne_nil _ _ _) hc hu
        · refine ⟨?_, head3_isDigit _ _ _⟩
          have := one_le_fmtInt_length (u / 10 ^ 3)
          simp only [List.length_append, List.length_cons, List.length_nil]
          omega
      · -- milliseconds: `fmtInt (u/1000000) ++ fraction ++ "ms"`
        have hcore : durationCore u =
            fmtInt (u / 10 ^ 6) ++ (fmtFrac u 6 [] false).1 ++ ['m', 's'] := by
          unfold durationCore
          rw [if_pos hsec, if_neg hmic, if_neg hmil, fmtFrac_snd]
        rw [hcore]
        have hval : u / 10 ^ 6 * Millisecond + u % 10 ^ 6 = u := by
          rw [hMil]; omega
        have hc := frac_component_parse u 6 (u / 10 ^ 6) ['m', 's'] Millisecond
          (by rw [hMil]; norm_num) (by norm_num) rfl (by decide) (by decide)
          (by rw [hMil, h63]; omega)
          (by rw [hval]; exact hu)
        rw [hval] at hc
        constructor
        · exact parseLoop_run1 _ _ (append3_ne_nil _ _ _) hc hu
        · refine ⟨?_, head3_isDigit _ _ _⟩
          have := one_le_fmtInt_length (u / 10 ^ 6)
          simp only [List.length_append, List.length_cons, List.length_nil]
          omega
  · -- at least one second
    have hfr2 : (fmtFrac u 9 [] false).2 = u / 10 ^ 9 := fmtFrac_snd u 9
    by_cases hm : 0 < u / 10 ^ 9 / 60
    case neg =>
      have hcore : durationCore u =
          fmtInt (u / 10 ^ 9 % 60) ++ (fmtFrac u 9 [] false).1 ++ ['s'] := by
        unfold durationCore
        rw [if_neg hsec, hfr2, if_neg hm]
      have hval : u / 10 ^ 9 % 60 * Second + u % 10 ^ 9 = u := by
        rw [hS]
        omega
      have hc := frac_component_parse u 9 (u / 10 ^ 9 % 60) ['s'] Second
        (by rw [hS]; norm_num) (by norm_num) rfl (by decide) (by decide)
        (by rw [hS, h63]; omega)
        (by rw [hval]; exact hu)
      rw [hval] at hc
      rw [hcore]
      constructor
      · exact parseLoop_run1 _ _ (append3_ne_nil _ _ _) hc hu
      · refine ⟨?_, head3_isDigit _ _ _⟩
        have := one_le_fmtInt_length (u / 10 ^ 9 % 60)
        simp only [List.length_append, List.length_cons, List.length_nil]
        omega
    case pos =>
      have hc2 := frac_component_parse u 9 (u / 10 ^ 9 % 60) ['s'] Second
        (by rw [hS]; norm_num) (by norm_num) rfl (by decide) (by decide)
        (by rw [hS, h63]; omega)
        (by rw [hS, h63]; omega)
      by_cases hh : 0 < u / 10 ^ 9 / 60 / 60
      case neg =>
        have hcore : durationCore u =
            fmtInt (u / 10 ^ 9 / 60 % 60) ++ ['m'] ++
              (fmtInt (u / 10 ^ 9 % 60) ++ (fmtFrac u 9 [] false).1 ++ ['s']) := by
          unfold durationCore
          rw [if_neg hsec, hfr2, if_pos hm, if_neg hh]
        have hc1 := parseComponent_int (fmtInt (u / 10 ^ 9 / 60 % 60)) ['m']
          (fmtInt (u / 10 ^ 9 % 60) ++ (fmtFrac u 9 [] false).1 ++ ['s']) Minute
          (fmtInt_all_digits _) (fmtInt_ne_nil _) rfl (by decide) (by decide)
          (head3_digit _ _ _)
          (by rw [digitsVal_fmtInt, hMin, h63]; omega)
        rw [digitsVal_fmtInt] at hc1
        rw [hcore]
        have hrun := parseLoop_run2 _ _ _ _ (append3_ne_nil _ _ _) hc1
          (append3_ne_nil _ _ _) hc2
          (by
            simp only [List.length_append, List.length_cons, List.length_nil]
            omega)
          (by rw [hMin, h63]; omega)
          (by rw [hMin, hS, h63]; omega)
        have htot : u / 10 ^ 9 / 60 % 60 * Minute +
            (u / 10 ^ 9 % 60 * Second + u % 10 ^ 9) = u := by
          rw [hMin, hS]
          omega
        rw [htot] at hrun
        constructor
        · exact hrun
        · refine ⟨?_, head3_isDigit _ _ _⟩
          have := one_le_fmtInt_length (u / 10 ^ 9 / 60 % 60)
          simp only [List.length_append, List.length_cons, List.length_nil]
          omega
      case pos =>
        have hcore : durationCore u =
            fmtInt (u / 10 ^ 9 / 60 / 60) ++ ['h'] ++
              (fmtInt (u / 10 ^ 9 / 60 % 60) ++ ['m'] ++
                (fmtInt (u / 10 ^ 9 % 60) ++ (fmtFrac u 9 [] false).1 ++ ['s'])) := by
          unfold durationCore
          rw [if_neg hsec, hfr2, if_pos hm, if_pos hh]
        have hc1 := parseComponent_int (fmtInt (u / 10 ^ 9 / 60 / 60)) ['h']
          (fmtInt (u / 10 ^ 9 / 60 % 60) ++ ['m'] ++
            (fmtInt (u / 10 ^ 9 % 60) ++ (fmtFrac u 9 [] false).1 ++ ['s'])) Hour
          (fmtInt_all_digits _) (fmtInt_ne_nil _) rfl (by decide) (by decide)
          (head3_digit _ _ _)
          (by rw [digitsVal_fmtInt, hH, h63]; omega)
        rw [digitsVal_fmtInt] at hc1
        have hc1b := parseComponent_int (fmtInt (u / 10 ^ 9 / 60 % 60)) ['m']
          (fmtInt (u / 10 ^ 9 % 60) ++ (fmtFrac u 9 [] false).1 ++ ['s']) Minute
          (fmtInt_all_digits _) (fmtInt_ne_nil _) rfl (by decide) (by decide)
          (head3_digit _ _ _)
          (by rw [digitsVal_fmtInt, hMin, h63]; omega)
        rw [digitsVal_fmtInt] at hc1b
        rw [hcore]
        have hrun := parseLoop_run3 _ _ _ _ _ _ (append3_ne_nil _ _ _) hc1
          (append3_ne_nil _ _ _) hc1b (append3_ne_nil _ _ _) hc2
          (by
            simp only [List.length_append, List.length_cons, List.length_nil]
            omega)
          (by
            simp only [List.length_append, List.length_cons, List.length_nil]
            omega)
          (by rw [hH, h63]; omega)
          (by rw [hH, hMin, h63]; omega)
          (by rw [hH, hMin, hS, h63]; omega)
        have htot : u / 10 ^ 9 / 60 / 60 * Hour + u / 10 ^ 9 / 60 % 60 * Minute +
            (u / 10 ^ 9 % 60 * Second + u % 10 ^ 9) = u := by
          rw [hH, hMin, hS]
          omega
        rw [htot] at hrun
        constructor
        · exact hrun
        · refine ⟨?_, head3_isDigit _ _ _⟩
          have := one_le_fmtInt_length (u / 10 ^ 9 / 60 / 60)
          simp only [List.length_append, List.length_cons, List.length_nil]
          omega

/-- The round trip at the string level: parsing back the formatted
duration recovers the original `int64` nanosecond count. -/
lemma parseDuration_durationString (d : Int) (h1 : -(twoPow63 : Int) ≤ d)
    (h2 : d < (twoPow63 : Int)) :
    parseDuration (durationString d) = some d := by
  by_cases h0 : d = 0
  · subst h0
    decide
  · have hu0 : d.natAbs ≠ 0 := fun h => h0 (Int.natAbs_eq_zero.mp h)
    have hu : d.natAbs ≤ twoPow63 := by
      rw [twoPow63_eq] at *
      omega
    obtain ⟨hrun, hlen, hhead⟩ := durationCore_parse d.natAbs hu
    have hne : durationCore d.natAbs ≠ [] := by
      intro h
      rw [h] at hlen
      simp at hlen
    have hne0 : durationCore d.natAbs ≠ ['0'] := by
      intro h
      rw [h] at hlen
      simp at hlen
    by_cases hneg : d < 0
    · have hds : durationString d = '-' :: durationCore d.natAbs := by
        unfold durationString
        rw [if_neg hu0, if_pos hneg]
      rw [hds]
      have heq : parseDuration ('-' :: durationCore d.natAbs) =
          (if durationCore d.natAbs = ['0'] then some 0
           else if durationCore d.natAbs = [] then none
           else
             match parseLoop (durationCore d.natAbs).length 0 (durationCore d.natAbs) with
             | none => none
             | some dd => some (-(dd : Int))) := rfl
      rw [heq, if_neg hne0, if_neg hne, hrun]
      show some (-((d.natAbs : Nat) : Int)) = some d
      have : -((d.natAbs : Nat) : Int) = d := by
        rw [twoPow63_eq] at *
        omega
      rw [this]
    · have hds : durationString d = durationCore d.natAbs := by
        unfold durationString
        rw [if_neg hu0, if_neg hneg]
      obtain ⟨c0, t0, hc⟩ := List.exists_cons_of_ne_nil hne
      have hdig : c0.isDigit = true := hhead c0 (by rw [hc]; rfl)
      have hminus : ¬ (c0 = '-') := by
        intro h
        subst h
        exact absurd hdig (by decide)
      have hplus : ¬ (c0 = '+') := by
        intro h
        subst h
        exact absurd hdig (by decide)
      rw [hds, hc]
      rw [hc] at hrun hne hne0
      have hstrip : stripSign (c0 :: t0) = (false, c0 :: t0) := by
        simp only [stripSign]
        rw [if_neg hminus, if_neg hplus]
      have heq : parseDuration (c0 :: t0) =
          (if c0 :: t0 = ['0'] then some 0
           else if c0 :: t0 = ([] : List Char) then none
           else
             match parseLoop (c0 :: t0).length 0 (c0 :: t0) with
             | none => none
             | some dd =>
               if dd > twoPow63 - 1 then none else some ((dd : Nat) : Int)) := by
        unfold parseDuration
        rw [hstrip]
        rfl
      rw [heq, if_neg hne0, if_neg hne, hrun]
      show (if d.natAbs > twoPow63 - 1 then none else some ((d.natAbs : Nat) : Int)) = some d
      have hle : ¬ (d.natAbs > twoPow63 - 1) := by
        rw [twoPow63_eq] at *
        omega
      rw [if_neg hle]
      have : ((d.natAbs : Nat) : Int) = d := by
        rw [twoPow63_eq] at *
        omega
      rw [this]

/-- C10: `Duration.UnmarshalJSON` applied to the output of
`Duration.MarshalJSON` yields the duration back unchanged, for every
`int64` nanosecond count (round trip through Go's duration-string
encoding, `time.ParseDuration ∘ time.Duration.String = id`);
additionally a plain JSON number is accepted as a nanosecond count,
and every JSON value that is neither a number nor a string parseable
by `time.ParseDuration` produces an error. -/
theorem durationJSON_roundtrip (d n : Int) (j : JsonValue)
    (h1 : -(twoPow63 : Int) ≤ d) (h2 : d < (twoPow63 : Int))
    (hj1 : ∀ m, j ≠ .num m)
    (hj2 : ∀ s, j = .str s → parseDuration s.toList = none) :
    durationUnmarshalJSON (durationMarshalJSON d) = .ok d ∧
      durationUnmarshalJSON (.num n) = .ok n ∧
      ∃ e, durationUnmarshalJSON j = .error e := by
  refine ⟨?_, rfl, ?_⟩
  · have hs : (String.mk (durationString d)).toList = durationString d := rfl
    show durationUnmarshalJSON (.str (String.mk (durationString d))) = .ok d
    simp only [durationUnmarshalJSON, hs, parseDuration_durationString d h1 h2]
  · cases j with
    | num m => exact absurd rfl (hj1 m)
    | str s =>
      refine ⟨"time: invalid duration", ?_⟩
      simp only [durationUnmarshalJSON, hj2 s rfl]
    | null => exact ⟨"invalid duration", rfl⟩
    | bool b => exact ⟨"invalid duration", rfl⟩
    | arr l => exact ⟨"invalid duration", rfl⟩
    | obj l => exact ⟨"invalid duration", rfl⟩

/-- Witness for C10 at `d = -3661500000000` (`"-1h1m1.5s"`),
`n = 42`, and a non-duration string. -/
theorem durationJSON_roundtrip_witness :
    durationUnmarshalJSON (durationMarshalJSON (-3661500000000)) =
        .ok (-3661500000000) ∧
      durationUnmarshalJSON (.num 42) = .ok 42 ∧
      ∃ e, durationUnmarshalJSON (.str "not a duration") = .error e :=
  durationJSON_roundtrip (-3661500000000) 42 (.str "not a duration")
    (by decide) (by decide)
    (fun m h => JsonValue.noConfusion h)
    (fun s h => by
      cases h
      decide)

end Launcher
